import Mathlib

/-!
# Fruit manager: the key-partitioned stock adjustment pipeline

A shallow embedding of `controllers/fruit_controller.go` and
`backend/models/fruit.go`.

* Go's `int` is the 64-bit two's complement integer (`GoInt`); `+` and `-`
  wrap around.
* Go's `error` values are the type `GoError`; `errors.Is` against the
  driver's sentinel is `errorsIs`.
* The MongoDB collection is the record `Mongo`: the documents, a schedule of
  driver faults (so that every driver call may fail), and a ghost log of the
  driver calls issued so far.
* The two worker goroutines are embedded per loop iteration, split at the
  point between the read of the store and the write to it.
* The two handlers are embedded as a transition system whose moves are those
  of the handler goroutine (a pass of the dispatch loop, the close of the
  channels, the aggregation after `waitGroup.Wait()`) and of the worker
  goroutines; `Reach` is reachability under any scheduling. A send on an
  unbuffered per-name channel is a move only when the worker of that name
  stands at its receive; the start of a worker is taken together with the
  first send to it. Sends on the buffered `errChannel` are never blocked, which
  `errChannel_within_capacity` justifies.
-/

namespace FruitManager

/-! ## Go integers -/

/-- Two's complement wrap-around of a mathematical integer into 64 bits. -/
def wrapInt (x : Int) : Int :=
  (x + 9223372036854775808) % 18446744073709551616 - 9223372036854775808

/-- Go's `int` on a 64-bit platform. -/
structure GoInt where
  val : Int
  lo : -9223372036854775808 ≤ val
  hi : val ≤ 9223372036854775807
deriving DecidableEq

namespace GoInt

/-- Conversion with wrap-around. -/
def ofInt (x : Int) : GoInt :=
  ⟨wrapInt x, by unfold wrapInt; omega, by unfold wrapInt; omega⟩

/-- Go's `a + b` on `int`. -/
def add (a b : GoInt) : GoInt := ofInt (a.val + b.val)

/-- Go's `a - b` on `int`. -/
def sub (a b : GoInt) : GoInt := ofInt (a.val - b.val)

/-- The zero value of `int`. -/
def zero : GoInt := ⟨0, by decide, by decide⟩

end GoInt

/-! ## Data model -/

/-- The struct `Fruit` (the same in `controllers` and in `models`). -/
structure Fruit where
  Name : String
  Quantity : GoInt
deriving DecidableEq

/-- The zero value of `Fruit`, what `var fruit Fruit` holds. -/
def Fruit.zero : Fruit := ⟨"", GoInt.zero⟩

/-- The struct `Response`. -/
structure Response where
  Message : List String
  IsSuccess : Bool
deriving DecidableEq

/-- Go `error` values that occur in the program: the driver's sentinel
`mongo.ErrNoDocuments`, the driver's rejection of a nil document, any other
driver failure with its text, and a value made by `errors.New`. -/
inductive GoError where
  | ErrNoDocuments
  | nilDocument
  | driver (msg : String)
  | new (msg : String)
deriving DecidableEq

/-- The method `err.Error()`. -/
def GoError.Error : GoError → String
  | .ErrNoDocuments => "mongo: no documents in result"
  | .nilDocument => "document is nil"
  | .driver msg => msg
  | .new msg => msg

/-- The call `errors.Is(err, target)`: none of the error values of the program
wraps another one, so it is identity with the target. -/
def errorsIs (err target : GoError) : Bool := err == target

/-! ## The store -/

/-- A driver call, as recorded in the ghost log. -/
inductive Call where
  | findOne (name : String)
  | updateOne (name : String) (quantity : GoInt)
  | insertOne (doc : Option Fruit)
deriving DecidableEq

/-- The collection `fruit`: its documents, the schedule of driver faults (the
head decides the next driver call: `some msg` makes it fail with that text;
an exhausted schedule means that the calls succeed), and the log of calls. -/
structure Mongo where
  docs : List Fruit
  faults : List (Option String)
  calls : List Call
deriving DecidableEq

/-- Issue a driver call: log it and consult the fault schedule. -/
def Mongo.call (m : Mongo) (c : Call) : Option GoError × Mongo :=
  match m.faults with
  | [] => (none, { m with calls := m.calls ++ [c] })
  | f :: fs => (f.map GoError.driver, { m with faults := fs, calls := m.calls ++ [c] })

/-- Whether the fault schedule lets the next driver call through. -/
def Mongo.nextOk (m : Mongo) : Bool :=
  match m.faults with
  | some _ :: _ => false
  | _ => true

/-- The first document with the given name. -/
def findDoc : List Fruit → String → Option Fruit
  | [], _ => none
  | d :: ds, name => if d.Name = name then some d else findDoc ds name

/-- The recorded quantity of a name. -/
def quantityOf (docs : List Fruit) (name : String) : Option GoInt :=
  (findDoc docs name).map Fruit.Quantity

/-- Set the quantity of the first document with the given name. -/
def setQuantity : List Fruit → String → GoInt → List Fruit
  | [], _, _ => []
  | d :: ds, name, q =>
    if d.Name = name then { d with Quantity := q } :: ds else d :: setQuantity ds name q

/-- The driver's `collection.FindOne(ctx, bson.M{"name": name}).Decode(&fruit)`
with `fruit` at its zero value before: the value of `fruit` after the call,
and the error. -/
def FindOneDecode (m : Mongo) (name : String) : (Fruit × Option GoError) × Mongo :=
  match m.call (.findOne name) with
  | (some err, m1) => ((Fruit.zero, some err), m1)
  | (none, m1) =>
    match findDoc m1.docs name with
    | some d => ((d, none), m1)
    | none => ((Fruit.zero, some .ErrNoDocuments), m1)

/-- The driver's `collection.UpdateOne(ctx, bson.M{"name": name},
bson.M{"$set": bson.M{"quantity": quantity}})`: the modified count and the
error. -/
def UpdateOne (m : Mongo) (name : String) (quantity : GoInt) : (Int × Option GoError) × Mongo :=
  match m.call (.updateOne name quantity) with
  | (some err, m1) => ((0, some err), m1)
  | (none, m1) =>
    match findDoc m1.docs name with
    | some d =>
      ((if d.Quantity = quantity then 0 else 1, none),
        { m1 with docs := setQuantity m1.docs name quantity })
    | none => ((0, none), m1)

/-- The driver's `collection.InsertOne(ctx, fruit)` where `fruit` is a pointer
that may be nil. For a nil pointer the driver fails; its error stands here as
`GoError.nilDocument`, whose text is not the driver's own. -/
def InsertOne (m : Mongo) (fruit : Option Fruit) : Option GoError × Mongo :=
  match m.call (.insertOne fruit) with
  | (some err, m1) => (some err, m1)
  | (none, m1) =>
    match fruit with
    | some d => (none, { m1 with docs := m1.docs ++ [d] })
    | none => (some .nilDocument, m1)

/-! ## `models/fruit.go` -/

/-- The function `InsertFruit`. -/
def InsertFruit (m : Mongo) (fruit : Option Fruit) : Option GoError × Mongo :=
  InsertOne m fruit

/-- The function `GetFruitByName`: the returned pointer (nil is `none`) and the
returned error. -/
def GetFruitByName (m : Mongo) (name : String) : (Option Fruit × Option GoError) × Mongo :=
  match FindOneDecode m name with
  | ((fruit, some err), m1) =>
    if errorsIs err .ErrNoDocuments then
      ((none, some (.new ("查無此水果: " ++ fruit.Name))), m1)
    else
      ((none, some err), m1)
  | ((fruit, none), m1) => ((some fruit, none), m1)

/-- The function `UpdateFruitQuantityByName`. -/
def UpdateFruitQuantityByName (m : Mongo) (name : String) (quantity : GoInt) :
    (Int × Option GoError) × Mongo :=
  match UpdateOne m name quantity with
  | ((_, some err), m1) => ((0, some err), m1)
  | ((modifiedCount, none), m1) => ((modifiedCount, none), m1)

/-! ## `controllers/fruit_controller.go`: the workers -/

/-- How the part of a loop iteration after the read of the store ends: the
loop goes on with the next receive, the worker returns, or the goroutine
panics on a nil pointer. -/
inductive Flow where
  | next
  | ret
  | panic
deriving DecidableEq

/-- Result of the first part of a loop iteration, up to the read of the
store: either the worker has sent an error on `errorChannel` and returned, or
it goes on with the pointer it got. -/
inductive ReadResult where
  | failed (m : Mongo) (sent : GoError)
  | proceed (m : Mongo) (target : Option Fruit)
deriving DecidableEq

/-- Result of the second part of a loop iteration (and of a whole one): the
store, the values sent on `errorChannel`, and how the iteration ends. -/
structure WriteResult where
  mongo : Mongo
  sent : List (Option GoError)
  flow : Flow
deriving DecidableEq

/-- Lines 28-39 of `fruitWorker`: the read and its error handling. -/
def fruitWorkerRead (m : Mongo) (order : Fruit) : ReadResult :=
  match GetFruitByName m order.Name with
  | ((_, some err), m1) =>
    if errorsIs err .ErrNoDocuments then
      .failed m1 (.new (order.Name ++ " 倉庫無此種類"))
    else
      .failed m1 (.new err.Error)
  | ((targetOrder, none), m1) => .proceed m1 targetOrder

/-- Lines 41-56 of `fruitWorker`: the remaining quantity, the write or the
rejection, and the send of `nil` on success. -/
def fruitWorkerWrite (m : Mongo) (order : Fruit) (targetOrder : Option Fruit) : WriteResult :=
  match targetOrder with
  | none => ⟨m, [], .panic⟩
  | some target =>
    let remainingQuantity := target.Quantity.sub order.Quantity
    if 0 ≤ remainingQuantity.val then
      match UpdateFruitQuantityByName m order.Name remainingQuantity with
      | ((_, some updateErr), m1) => ⟨m1, [some (.new updateErr.Error)], .ret⟩
      | ((_, none), m1) => ⟨m1, [none], .next⟩
    else
      ⟨m, [some (.new (order.Name ++ " 庫存不足"))], .ret⟩

/-- One iteration of the loop of `fruitWorker` for a received order. -/
def fruitWorkerBody (m : Mongo) (order : Fruit) : WriteResult :=
  match fruitWorkerRead m order with
  | .failed m1 err => ⟨m1, [some err], .ret⟩
  | .proceed m1 targetOrder => fruitWorkerWrite m1 order targetOrder

/-- Lines 64-78 of `restockWorker`: the read, the insert on a missing record,
and the error handling. -/
def restockWorkerRead (m : Mongo) (fruit : Fruit) : ReadResult :=
  match GetFruitByName m fruit.Name with
  | ((targetStock, some err), m1) =>
    if errorsIs err .ErrNoDocuments then
      match InsertFruit m1 targetStock with
      | (some insertErr, m2) => .failed m2 (.new insertErr.Error)
      | (none, m2) => .proceed m2 targetStock
    else
      .failed m1 (.new err.Error)
  | ((targetStock, none), m1) => .proceed m1 targetStock

/-- Lines 79-84 of `restockWorker`: the write of the increased quantity.
Nothing is sent on success. -/
def restockWorkerWrite (m : Mongo) (fruit : Fruit) (targetStock : Option Fruit) : WriteResult :=
  match targetStock with
  | none => ⟨m, [], .panic⟩
  | some target =>
    match UpdateFruitQuantityByName m fruit.Name (target.Quantity.add fruit.Quantity) with
    | ((_, some updateErr), m1) => ⟨m1, [some (.new updateErr.Error)], .ret⟩
    | ((_, none), m1) => ⟨m1, [], .next⟩

/-- One iteration of the loop of `restockWorker` for a received request. -/
def restockWorkerBody (m : Mongo) (fruit : Fruit) : WriteResult :=
  match restockWorkerRead m fruit with
  | .failed m1 err => ⟨m1, [some err], .ret⟩
  | .proceed m1 targetStock => restockWorkerWrite m1 fruit targetStock

/-! ## The handlers as a transition system -/

/-- Which handler runs: `HandleOrderFruits` (workers are `fruitWorker`) or
`HandleRestock` (workers are `restockWorker`). -/
inductive Kind where
  | order
  | restock
deriving DecidableEq

/-- Where a worker goroutine stands: blocked in `range` on its channel,
holding a received request before the read, holding the request and the
pointer it read before the write, or returned. -/
inductive WState where
  | recv
  | got (o : Fruit)
  | have (o : Fruit) (target : Option Fruit)
  | exited
deriving DecidableEq

/-- A started worker with the name its channel is registered under in the
map `channels`. -/
structure Worker where
  name : String
  st : WState
deriving DecidableEq

/-- Where the handler goroutine stands: in the dispatch loop with the requests
still to send, past `close` of the channels and in `waitGroup.Wait()`,
returned with its response, or dead because a goroutine panicked. -/
inductive Phase where
  | dispatching (pending : List Fruit)
  | waiting
  | returned (resp : Response)
  | crashed
deriving DecidableEq

/-- State of one run of a handler. The entries of `errChannel` carry, as ghost
information, the name of the worker that sent them. -/
structure PState where
  kind : Kind
  phase : Phase
  workers : List Worker
  mongo : Mongo
  errChannel : List (String × Option GoError)
deriving DecidableEq

/-- The state of a handler after `Bind`, before the dispatch loop. -/
def init (kind : Kind) (m : Mongo) (batch : List Fruit) : PState :=
  ⟨kind, .dispatching batch, [], m, []⟩

/-- The handler `HandleOrderFruits` after `Bind`, on the collection `m` with the
parsed body `orders`: the state its run starts in. -/
def HandleOrderFruits (m : Mongo) (orders : List Fruit) : PState := init .order m orders

/-- The handler `HandleRestock` after `Bind`, on the collection `m` with the
parsed body `restocks`: the state its run starts in. -/
def HandleRestock (m : Mongo) (restocks : List Fruit) : PState := init .restock m restocks

/-- The first part of an iteration of the worker of a handler. -/
def readPhase : Kind → Mongo → Fruit → ReadResult
  | .order => fruitWorkerRead
  | .restock => restockWorkerRead

/-- The second part of an iteration of the worker of a handler. -/
def writePhase : Kind → Mongo → Fruit → Option Fruit → WriteResult
  | .order => fruitWorkerWrite
  | .restock => restockWorkerWrite

/-- One pass of the body of the dispatch loop for the request `o`: look the
name up in `channels`; when absent make the channel and start the worker;
then send on the unbuffered channel, which needs the worker to stand at its
receive. `none` means that the send blocks. -/
def dispatch : List Worker → Fruit → Option (List Worker)
  | [], o => some [⟨o.Name, .got o⟩]
  | w :: ws, o =>
    if w.name = o.Name then
      match w.st with
      | .recv => some (⟨w.name, .got o⟩ :: ws)
      | _ => none
    else
      (dispatch ws o).map (fun ws1 => w :: ws1)

/-- The aggregation loop over the closed `errChannel`. -/
def collectMessages : List (Option GoError) → List String → List String
  | [], errorMessages => errorMessages
  | none :: rest, errorMessages => collectMessages rest errorMessages
  | some err :: rest, errorMessages => collectMessages rest (errorMessages ++ [err.Error])

/-- The rendered response of a handler for the collected outcomes. -/
def aggregate (errs : List (Option GoError)) : Response :=
  let errorMessages := collectMessages errs []
  ⟨errorMessages, errorMessages.length == 0⟩

/-- Whether the channels of the workers are closed. -/
def Phase.closed : Phase → Bool
  | .dispatching _ => false
  | _ => true

/-- The move of the handler goroutine, when it has one. -/
def stepDispatcher (s : PState) : Option PState :=
  match s.phase with
  | .dispatching [] => some { s with phase := .waiting }
  | .dispatching (o :: rest) =>
    (dispatch s.workers o).map (fun ws => { s with phase := .dispatching rest, workers := ws })
  | .waiting =>
    if s.workers.all (fun w => w.st = .exited) then
      some { s with phase := .returned (aggregate (s.errChannel.map Prod.snd)) }
    else
      none
  | .returned _ => none
  | .crashed => none

/-- Effect of a move of a worker: its new state, the store, what it sent, and
whether it panicked. -/
structure WStep where
  worker : Worker
  mongo : Mongo
  sent : List (Option GoError)
  panicked : Bool
deriving DecidableEq

/-- The move of a worker goroutine, when it has one. -/
def stepWorker (kind : Kind) (closed : Bool) (m : Mongo) (w : Worker) : Option WStep :=
  match w.st with
  | .recv => if closed then some ⟨⟨w.name, .exited⟩, m, [], false⟩ else none
  | .got o =>
    match readPhase kind m o with
    | .failed m1 err => some ⟨⟨w.name, .exited⟩, m1, [some err], false⟩
    | .proceed m1 target => some ⟨⟨w.name, .have o target⟩, m1, [], false⟩
  | .have o target =>
    match writePhase kind m o target with
    | ⟨m1, sent, .next⟩ => some ⟨⟨w.name, .recv⟩, m1, sent, false⟩
    | ⟨m1, sent, .ret⟩ => some ⟨⟨w.name, .exited⟩, m1, sent, false⟩
    | ⟨m1, sent, .panic⟩ => some ⟨w, m1, sent, true⟩
  | .exited => none

/-- The state after the move `r` of the worker `w` standing between `pre` and
`post`. -/
def applyWStep (s : PState) (pre : List Worker) (w : Worker) (post : List Worker) (r : WStep) :
    PState :=
  { s with
    phase := if r.panicked then .crashed else s.phase
    workers := pre ++ r.worker :: post
    mongo := r.mongo
    errChannel := s.errChannel ++ r.sent.map (fun e => (w.name, e)) }

/-- The moves of the workers in `rest`, which stand after `pre`. -/
def workerSuccs (s : PState) : List Worker → List Worker → List PState
  | _, [] => []
  | pre, w :: post =>
    (match stepWorker s.kind s.phase.closed s.mongo w with
      | some r => [applyWStep s pre w post r]
      | none => []) ++ workerSuccs s (pre ++ [w]) post

/-- All states one move away. A crashed process makes no move. -/
def successors (s : PState) : List PState :=
  match s.phase with
  | .crashed => []
  | _ => (stepDispatcher s).toList ++ workerSuccs s [] s.workers

/-- One move of some goroutine. -/
def Step (s t : PState) : Prop := t ∈ successors s

/-- Reachability by moves of the goroutines, under any scheduling. -/
def Reach : PState → PState → Prop := Relation.ReflTransGen Step

/-- No goroutine can move. -/
def Terminal (s : PState) : Prop := successors s = []

instance (s t : PState) : Decidable (Step s t) := by unfold Step; infer_instance

instance (s : PState) : Decidable (Terminal s) := by unfold Terminal; infer_instance

/-- The run under the scheduler that always moves the first goroutine able to
move (the handler before the workers), for at most `n` moves. -/
def runFirst : Nat → PState → PState
  | 0, s => s
  | n + 1, s =>
    match successors s with
    | [] => s
    | t :: _ => runFirst n t

/-- The distinct names of a batch, in the order of their first occurrence,
after the names in `seen`. -/
def distinctNamesFrom (seen : List String) : List Fruit → List String
  | [] => []
  | o :: rest =>
    if o.Name ∈ seen then distinctNamesFrom seen rest
    else o.Name :: distinctNamesFrom (o.Name :: seen) rest

/-- The distinct names of a batch, in the order of their first occurrence. -/
def distinctNames (batch : List Fruit) : List String := distinctNamesFrom [] batch

/-! ## Measures and invariants used in the proofs -/

/-- How many moves a worker standing there can still make without a new
request. -/
def WState.weight : WState → Nat
  | .recv => 1
  | .got _ => 3
  | .have _ _ => 2
  | .exited => 0

/-- Weight of the handler goroutine: every request still to send counts for
the moves it can cause. -/
def Phase.weight : Phase → Nat
  | .dispatching pending => 4 * pending.length + 3
  | .waiting => 2
  | .returned _ => 1
  | .crashed => 0

/-- Sum of the weights of the workers. -/
def workersWeight : List Worker → Nat
  | [] => 0
  | w :: ws => w.st.weight + workersWeight ws

/-- A bound on the number of moves left to a run. -/
def PState.weight (s : PState) : Nat := s.phase.weight + workersWeight s.workers

/-- Sum of the quantities of a list of requests. -/
def qsum : List Fruit → Int
  | [] => 0
  | o :: rest => o.Quantity.val + qsum rest

/-- The driver calls of a sequential application of the orders to the name
`n` with recorded quantity `cur`: for every order, in the order given, a read
and the write of what remains. -/
def orderCalls (n : String) : Int → List Fruit → List Call
  | _, [] => []
  | cur, o :: rest =>
    .findOne n :: .updateOne n (GoInt.ofInt (cur - o.Quantity.val))
      :: orderCalls n (cur - o.Quantity.val) rest

/-- The shapes of handler and worker in a run of `HandleOrderFruits` on a batch
for the single name `n`: `rest` are the requests not yet applied, `cur` the
recorded quantity, `tail` the read already issued for the request in hand. -/
inductive OneNameShape (n : String) (cur : GoInt) (errs : List (String × Option GoError)) :
    Phase → List Worker → List Fruit → List Call → Prop where
  | idle (rest : List Fruit) (ws : List Worker) (hw : ws = [] ∨ ws = [⟨n, .recv⟩]) :
      OneNameShape n cur errs (.dispatching rest) ws rest []
  | got (o : Fruit) (rest : List Fruit) (ph : Phase)
      (hph : ph = .dispatching rest ∨ (rest = [] ∧ ph = .waiting)) :
      OneNameShape n cur errs ph [⟨n, .got o⟩] (o :: rest) []
  | read (o : Fruit) (rest : List Fruit) (ph : Phase) (target : Fruit)
      (htarget : target.Quantity = cur)
      (hph : ph = .dispatching rest ∨ (rest = [] ∧ ph = .waiting)) :
      OneNameShape n cur errs ph [⟨n, .have o (some target)⟩] (o :: rest) [.findOne n]
  | closed (ws : List Worker) (hw : ws = [] ∨ ws = [⟨n, .recv⟩] ∨ ws = [⟨n, .exited⟩]) :
      OneNameShape n cur errs .waiting ws [] []
  | returned (ws : List Worker) (hw : ws = [] ∨ ws = [⟨n, .exited⟩]) :
      OneNameShape n cur errs (.returned (aggregate (errs.map Prod.snd))) ws [] []

/-- Invariant of a run of `HandleOrderFruits` on the batch `reqs` for the single
name `n` with recorded quantity `q` and a store whose calls succeed: a prefix
`done` of the batch has been applied in order, each with outcome nil. -/
def OneNameInv (n : String) (q : GoInt) (calls0 : List Call) (reqs : List Fruit)
    (s : PState) : Prop :=
  s.kind = .order ∧ s.mongo.faults = [] ∧
  ∃ done rest cur tail, reqs = done ++ rest ∧
    quantityOf s.mongo.docs n = some cur ∧ cur.val = q.val - qsum done ∧
    s.errChannel = done.map (fun _ => (n, none)) ∧
    s.mongo.calls = calls0 ++ orderCalls n q.val done ++ tail ∧
    OneNameShape n cur s.errChannel s.phase s.workers rest tail

/-- What a run of `HandleOrderFruits` on the batch `reqs` for the single name
`n` with recorded quantity `q` has to end in: the handler has returned
success without messages, every request has its nil outcome, the driver calls
are those of the sequential application in submission order, and the
recorded quantity is `q` minus the sum of the requests. -/
def OneNameGood (n : String) (q : GoInt) (calls0 : List Call) (reqs : List Fruit)
    (f : PState) : Prop :=
  f.phase = .returned ⟨[], true⟩ ∧
  f.errChannel = reqs.map (fun _ => (n, none)) ∧
  f.mongo.calls = calls0 ++ orderCalls n q.val reqs ∧
  ∃ qf, quantityOf f.mongo.docs n = some qf ∧ qf.val = q.val - qsum reqs

/-- The driver calls of a sequential application of the restocks to the name
`n` with recorded quantity `cur`: for every request, in the order given, a
read and the write of the increased quantity. -/
def restockCalls (n : String) : Int → List Fruit → List Call
  | _, [] => []
  | cur, o :: rest =>
    .findOne n :: .updateOne n (GoInt.ofInt (cur + o.Quantity.val))
      :: restockCalls n (cur + o.Quantity.val) rest

/-- Invariant of a run of `HandleRestock` on the batch `reqs` for the single
name `n` with recorded quantity `q` and a store whose calls succeed: a prefix
`done` of the batch has been applied in order, and nothing has been sent. -/
def RestockOneInv (n : String) (q : GoInt) (calls0 : List Call) (reqs : List Fruit)
    (s : PState) : Prop :=
  s.kind = .restock ∧ s.mongo.faults = [] ∧
  ∃ done rest cur tail, reqs = done ++ rest ∧
    quantityOf s.mongo.docs n = some cur ∧ cur.val = q.val + qsum done ∧
    s.errChannel = [] ∧
    s.mongo.calls = calls0 ++ restockCalls n q.val done ++ tail ∧
    OneNameShape n cur s.errChannel s.phase s.workers rest tail

/-- The request a worker has in hand. -/
def WState.request : WState → Option Fruit
  | .got o => some o
  | .have o _ => some o
  | _ => none

/-- The name a driver call is about. -/
def Call.name : Call → Option String
  | .findOne name => some name
  | .updateOne name _ => some name
  | .insertOne doc => doc.map Fruit.Name

/-- The driver calls about the name `n`. -/
def callsAbout (n : String) (calls : List Call) : List Call :=
  calls.filter (fun c => c.name = some n)

/-- The outcomes sent by the worker of the name `n`. -/
def outcomesOf (n : String) (errs : List (String × Option GoError)) :
    List (String × Option GoError) :=
  errs.filter (fun x => x.1 = n)

/-- The requests for the name `n` that the dispatch loop has still to send. -/
def Phase.pendingFor (n : String) : Phase → List Fruit
  | .dispatching pending => pending.filter (fun o => o.Name = n)
  | _ => []

/-- Invariant of every run of a handler: the workers have distinct names, a
worker holds requests of its own name only and never a nil pointer after a
read, no goroutine has panicked, every outcome on the channel comes from a
started worker, and a worker that has sent an error has returned. -/
structure WellFormed (s : PState) : Prop where
  names_nodup : (s.workers.map Worker.name).Nodup
  own_request : ∀ w ∈ s.workers, ∀ o, w.st.request = some o → o.Name = w.name
  target_set : ∀ w ∈ s.workers, ∀ o, w.st ≠ .have o none
  not_crashed : s.phase ≠ .crashed
  senders : ∀ x ∈ s.errChannel, ∃ w ∈ s.workers, w.name = x.1
  failed_exited : ∀ x ∈ s.errChannel, x.2 ≠ none →
    ∀ w ∈ s.workers, w.name = x.1 → w.st = .exited

/-- The requests the dispatch loop has still to send. -/
def Phase.pending : Phase → List Fruit
  | .dispatching pending => pending
  | _ => []

/-- The number of workers that have a request in hand. -/
def busy : List Worker → Nat
  | [] => 0
  | w :: ws => (if w.st.request.isSome then 1 else 0) + busy ws

/-! ## Concrete stores and batches -/

/-- A record or a request for `"apple"`. -/
def apple (q : Int) : Fruit := ⟨"apple", GoInt.ofInt q⟩

/-- A record or a request for `"banana"`. -/
def banana (q : Int) : Fruit := ⟨"banana", GoInt.ofInt q⟩

/-- A record or a request for `"kiwi"`. -/
def kiwi (q : Int) : Fruit := ⟨"kiwi", GoInt.ofInt q⟩

/-- A store with the given documents whose driver calls all succeed. -/
def store (docs : List Fruit) : Mongo := ⟨docs, [], []⟩

/-- Start of `HandleOrderFruits` on stock 6 of apple with the orders 8 and 1. -/
def orderShort : PState := HandleOrderFruits (store [apple 6]) [apple 8, apple 1]

/-- The states `orderShort` can reach. -/
def orderShortStates : List PState :=
  [orderShort,
   ⟨.order, .dispatching [apple 1], [⟨"apple", .got (apple 8)⟩], store [apple 6], []⟩,
   ⟨.order, .dispatching [apple 1], [⟨"apple", .have (apple 8) (some (apple 6))⟩],
     ⟨[apple 6], [], [.findOne "apple"]⟩, []⟩,
   ⟨.order, .dispatching [apple 1], [⟨"apple", .exited⟩],
     ⟨[apple 6], [], [.findOne "apple"]⟩, [("apple", some (.new "apple 庫存不足"))]⟩]

/-- Start of `HandleOrderFruits` on an empty store with two orders for kiwi. -/
def orderUnknown : PState := HandleOrderFruits (store []) [kiwi 1, kiwi 2]

/-- The states `orderUnknown` can reach. -/
def orderUnknownStates : List PState :=
  [orderUnknown,
   ⟨.order, .dispatching [kiwi 2], [⟨"kiwi", .got (kiwi 1)⟩], store [], []⟩,
   ⟨.order, .dispatching [kiwi 2], [⟨"kiwi", .exited⟩],
     ⟨[], [], [.findOne "kiwi"]⟩, [("kiwi", some (.new "查無此水果: "))]⟩]

/-- Start of `HandleOrderFruits` on stock of apple and banana with two orders for
apple, the first too large, and one for banana. -/
def orderTwoNames : PState :=
  HandleOrderFruits (store [apple 6, banana 5]) [apple 8, apple 1, banana 1]

/-- The states `orderTwoNames` can reach. -/
def orderTwoNamesStates : List PState :=
  [orderTwoNames,
   ⟨.order, .dispatching [apple 1, banana 1], [⟨"apple", .got (apple 8)⟩],
     store [apple 6, banana 5], []⟩,
   ⟨.order, .dispatching [apple 1, banana 1], [⟨"apple", .have (apple 8) (some (apple 6))⟩],
     ⟨[apple 6, banana 5], [], [.findOne "apple"]⟩, []⟩,
   ⟨.order, .dispatching [apple 1, banana 1], [⟨"apple", .exited⟩],
     ⟨[apple 6, banana 5], [], [.findOne "apple"]⟩, [("apple", some (.new "apple 庫存不足"))]⟩]

/-- Start of `HandleRestock` on stock 1 of apple with one restock of 5. -/
def restockOne : PState := HandleRestock (store [apple 1]) [apple 5]

/-- The states `restockOne` can reach. -/
def restockOneStates : List PState :=
  [restockOne,
   ⟨.restock, .dispatching [], [⟨"apple", .got (apple 5)⟩], store [apple 1], []⟩,
   ⟨.restock, .waiting, [⟨"apple", .got (apple 5)⟩], store [apple 1], []⟩,
   ⟨.restock, .dispatching [], [⟨"apple", .have (apple 5) (some (apple 1))⟩],
     ⟨[apple 1], [], [.findOne "apple"]⟩, []⟩,
   ⟨.restock, .waiting, [⟨"apple", .have (apple 5) (some (apple 1))⟩],
     ⟨[apple 1], [], [.findOne "apple"]⟩, []⟩,
   ⟨.restock, .dispatching [], [⟨"apple", .recv⟩],
     ⟨[apple 6], [], [.findOne "apple", .updateOne "apple" (GoInt.ofInt 6)]⟩, []⟩,
   ⟨.restock, .waiting, [⟨"apple", .recv⟩],
     ⟨[apple 6], [], [.findOne "apple", .updateOne "apple" (GoInt.ofInt 6)]⟩, []⟩,
   ⟨.restock, .waiting, [⟨"apple", .exited⟩],
     ⟨[apple 6], [], [.findOne "apple", .updateOne "apple" (GoInt.ofInt 6)]⟩, []⟩,
   ⟨.restock, .returned ⟨[], true⟩, [⟨"apple", .exited⟩],
     ⟨[apple 6], [], [.findOne "apple", .updateOne "apple" (GoInt.ofInt 6)]⟩, []⟩]

/-- Start of `HandleRestock` on an empty store with one restock of 5 kiwi. -/
def restockUnknown : PState := HandleRestock (store []) [kiwi 5]

/-- The states `restockUnknown` can reach. -/
def restockUnknownStates : List PState :=
  [restockUnknown,
   ⟨.restock, .dispatching [], [⟨"kiwi", .got (kiwi 5)⟩], store [], []⟩,
   ⟨.restock, .waiting, [⟨"kiwi", .got (kiwi 5)⟩], store [], []⟩,
   ⟨.restock, .dispatching [], [⟨"kiwi", .exited⟩],
     ⟨[], [], [.findOne "kiwi"]⟩, [("kiwi", some (.new "查無此水果: "))]⟩,
   ⟨.restock, .waiting, [⟨"kiwi", .exited⟩],
     ⟨[], [], [.findOne "kiwi"]⟩, [("kiwi", some (.new "查無此水果: "))]⟩,
   ⟨.restock, .returned ⟨["查無此水果: "], false⟩, [⟨"kiwi", .exited⟩],
     ⟨[], [], [.findOne "kiwi"]⟩, [("kiwi", some (.new "查無此水果: "))]⟩]

/-- Start of `HandleOrderFruits` on stock of apple and banana with an order for apple
that is too large, an order for banana, and a second order for apple. -/
def orderMixed : PState :=
  HandleOrderFruits (store [apple 6, banana 5]) [apple 8, banana 1, apple 1]

/-- Start of `HandleOrderFruits` on stock 10 of apple with the orders 4 and 8. -/
def orderFourEight : PState := HandleOrderFruits (store [apple 10]) [apple 4, apple 8]

/-- The states `orderFourEight` can reach. -/
def orderFourEightStates : List PState :=
  [orderFourEight,
   ⟨.order, .dispatching [apple 8], [⟨"apple", .got (apple 4)⟩], store [apple 10], []⟩,
   ⟨.order, .dispatching [apple 8], [⟨"apple", .have (apple 4) (some (apple 10))⟩],
     ⟨[apple 10], [], [.findOne "apple"]⟩, []⟩,
   ⟨.order, .dispatching [apple 8], [⟨"apple", .recv⟩],
     ⟨[apple 6], [], [.findOne "apple", .updateOne "apple" (GoInt.ofInt 6)]⟩,
     [("apple", none)]⟩,
   ⟨.order, .dispatching [], [⟨"apple", .got (apple 8)⟩],
     ⟨[apple 6], [], [.findOne "apple", .updateOne "apple" (GoInt.ofInt 6)]⟩,
     [("apple", none)]⟩,
   ⟨.order, .waiting, [⟨"apple", .got (apple 8)⟩],
     ⟨[apple 6], [], [.findOne "apple", .updateOne "apple" (GoInt.ofInt 6)]⟩,
     [("apple", none)]⟩,
   ⟨.order, .dispatching [], [⟨"apple", .have (apple 8) (some (apple 6))⟩],
     ⟨[apple 6], [],
       [.findOne "apple", .updateOne "apple" (GoInt.ofInt 6), .findOne "apple"]⟩,
     [("apple", none)]⟩,
   ⟨.order, .waiting, [⟨"apple", .have (apple 8) (some (apple 6))⟩],
     ⟨[apple 6], [],
       [.findOne "apple", .updateOne "apple" (GoInt.ofInt 6), .findOne "apple"]⟩,
     [("apple", none)]⟩,
   ⟨.order, .dispatching [], [⟨"apple", .exited⟩],
     ⟨[apple 6], [],
       [.findOne "apple", .updateOne "apple" (GoInt.ofInt 6), .findOne "apple"]⟩,
     [("apple", none), ("apple", some (.new "apple 庫存不足"))]⟩,
   ⟨.order, .waiting, [⟨"apple", .exited⟩],
     ⟨[apple 6], [],
       [.findOne "apple", .updateOne "apple" (GoInt.ofInt 6), .findOne "apple"]⟩,
     [("apple", none), ("apple", some (.new "apple 庫存不足"))]⟩,
   ⟨.order, .returned ⟨["apple 庫存不足"], false⟩, [⟨"apple", .exited⟩],
     ⟨[apple 6], [],
       [.findOne "apple", .updateOne "apple" (GoInt.ofInt 6), .findOne "apple"]⟩,
     [("apple", none), ("apple", some (.new "apple 庫存不足"))]⟩]

/-! ## Integers and the store: basic facts -/

theorem wrapInt_lo (x : Int) : -9223372036854775808 ≤ wrapInt x := by
  unfold wrapInt; omega

theorem wrapInt_hi (x : Int) : wrapInt x ≤ 9223372036854775807 := by
  unfold wrapInt; omega

theorem wrapInt_eq_self {x : Int} (h1 : -9223372036854775808 ≤ x) (h2 : x ≤ 9223372036854775807) :
    wrapInt x = x := by
  unfold wrapInt; omega

theorem GoInt.ext_val {a b : GoInt} (h : a.val = b.val) : a = b := by
  cases a; cases b; simp_all

theorem GoInt.sub_val (a b : GoInt) : (a.sub b).val = wrapInt (a.val - b.val) := rfl

theorem GoInt.add_val (a b : GoInt) : (a.add b).val = wrapInt (a.val + b.val) := rfl

/-- With a non-negative recorded quantity, a request that exceeds the record
makes the remaining quantity computed by `fruitWorker` negative. -/
theorem remaining_neg_of_exceeds (current requested : GoInt) (h0 : 0 ≤ current.val)
    (h : current.val < requested.val) : (current.sub requested).val < 0 := by
  have h1 := current.hi
  have h3 := requested.hi
  rw [GoInt.sub_val, wrapInt_eq_self (by omega) (by omega)]; omega

/-- With non-negative quantities the subtraction of `fruitWorker` does not wrap
around. -/
theorem remaining_val (current requested : GoInt) (h0 : 0 ≤ current.val)
    (h1 : 0 ≤ requested.val) : (current.sub requested).val = current.val - requested.val := by
  have h2 := current.hi
  have h3 := requested.hi
  rw [GoInt.sub_val, wrapInt_eq_self (by omega) (by omega)]

theorem call_docs (m : Mongo) (c : Call) : (m.call c).2.docs = m.docs := by
  unfold Mongo.call; split <;> rfl

theorem call_calls (m : Mongo) (c : Call) : (m.call c).2.calls = m.calls ++ [c] := by
  unfold Mongo.call; split <;> rfl

theorem call_ok (m : Mongo) (c : Call) (h : m.faults = []) :
    m.call c = (none, { m with calls := m.calls ++ [c] }) := by
  unfold Mongo.call; rw [h]

/-- A failed driver call fails with a driver error, never with a sentinel. -/
theorem call_err (m : Mongo) (c : Call) (e : GoError) (h : (m.call c).1 = some e) :
    ∃ msg, e = .driver msg := by
  unfold Mongo.call at h
  split at h
  · simp at h
  · rename_i f fs _
    cases f with
    | none => simp at h
    | some msg => exact ⟨msg, by simpa using h.symm⟩

/-- What `GetFruitByName` does to the store: the documents stay and one
`findOne` is logged. -/
theorem GetFruitByName_store (m : Mongo) (name : String) :
    (GetFruitByName m name).2.docs = m.docs ∧
    (GetFruitByName m name).2.calls = m.calls ++ [.findOne name] := by
  have hd := call_docs m (.findOne name)
  have hc := call_calls m (.findOne name)
  unfold GetFruitByName FindOneDecode
  rcases hcall : m.call (.findOne name) with ⟨e, m1⟩
  rw [hcall] at hd hc
  simp only at hd hc
  cases e with
  | some err => simp only; split <;> exact ⟨hd, hc⟩
  | none =>
    simp only
    cases hf : findDoc m1.docs name with
    | some d => exact ⟨hd, hc⟩
    | none => simp only [errorsIs]; exact ⟨hd, hc⟩

/-- The error of `GetFruitByName` is never the sentinel `mongo.ErrNoDocuments`:
the function replaces it by a value made with `errors.New`. -/
theorem GetFruitByName_not_sentinel (m : Mongo) (name : String) (p : Option Fruit) (e : GoError)
    (m1 : Mongo) (h : GetFruitByName m name = ((p, some e), m1)) :
    errorsIs e .ErrNoDocuments = false := by
  have herr := call_err m (.findOne name)
  unfold GetFruitByName FindOneDecode at h
  rcases hcall : m.call (.findOne name) with ⟨e1, m2⟩
  rw [hcall] at h herr
  cases e1 with
  | some err =>
    obtain ⟨msg, hmsg⟩ := herr err rfl
    subst hmsg
    simp [errorsIs] at h
    obtain ⟨⟨_, rfl⟩, _⟩ := h
    simp [errorsIs]
  | none =>
    simp only at h
    cases hf : findDoc m2.docs name with
    | some d => rw [hf] at h; simp at h
    | none =>
      rw [hf] at h
      simp [errorsIs] at h
      obtain ⟨⟨_, rfl⟩, _⟩ := h
      simp [errorsIs]

/-- A driver call that the fault schedule lets through. -/
theorem call_nextOk (m : Mongo) (c : Call) (h : m.nextOk = true) : (m.call c).1 = none := by
  unfold Mongo.nextOk at h
  unfold Mongo.call
  split
  · rfl
  · rename_i f fs hfs
    rw [hfs] at h
    cases f with
    | none => rfl
    | some msg => simp at h

theorem nextOk_of_nil (m : Mongo) (h : m.faults = []) : m.nextOk = true := by
  unfold Mongo.nextOk; rw [h]

theorem call_faults_nil (m : Mongo) (c : Call) (h : m.faults = []) : (m.call c).2.faults = [] := by
  rw [call_ok m c h]; exact h

/-- A successful `GetFruitByName` returns the first document of that name. -/
theorem GetFruitByName_found (m : Mongo) (name : String) (h : m.nextOk = true) (d : Fruit)
    (hd : findDoc m.docs name = some d) :
    GetFruitByName m name = ((some d, none), (m.call (.findOne name)).2) := by
  have h1 := call_nextOk m (.findOne name) h
  have h2 := call_docs m (.findOne name)
  unfold GetFruitByName FindOneDecode
  rcases hcall : m.call (.findOne name) with ⟨e, m1⟩
  rw [hcall] at h1 h2
  simp only at h1 h2
  subst h1
  simp only [h2, hd]

/-- On a name without a document, `GetFruitByName` returns a nil pointer and the
error text built from the zero value of its local variable. -/
theorem GetFruitByName_missing (m : Mongo) (name : String) (h : m.nextOk = true)
    (hd : findDoc m.docs name = none) :
    GetFruitByName m name =
      ((none, some (.new "查無此水果: ")), (m.call (.findOne name)).2) := by
  have h1 := call_nextOk m (.findOne name) h
  have h2 := call_docs m (.findOne name)
  unfold GetFruitByName FindOneDecode
  rcases hcall : m.call (.findOne name) with ⟨e, m1⟩
  rw [hcall] at h1 h2
  simp only at h1 h2
  subst h1
  simp only [h2, hd]
  rfl

/-! ## The aggregation loop -/

theorem collectMessages_eq (errs : List (Option GoError)) (acc : List String) :
    collectMessages errs acc = acc ++ errs.filterMap (fun e => e.map GoError.Error) := by
  induction errs generalizing acc with
  | nil => simp [collectMessages]
  | cons e rest ih =>
    cases e with
    | none => simp [collectMessages, ih]
    | some err => simp [collectMessages, ih]

theorem filterMap_error_eq_nil (errs : List (Option GoError)) :
    errs.filterMap (fun e => e.map GoError.Error) = [] ↔ ∀ e ∈ errs, e = none := by
  induction errs with
  | nil => simp
  | cons e rest ih =>
    cases e with
    | none => simp [ih]
    | some err => simp

/-- Claim C6. The response rendered by the aggregation loop of `HandleOrderFruits`
and `HandleRestock` has `isSuccess = true` if and only if every collected
entry is nil, and its message list is exactly the texts of the non-nil
entries, in the order collected, each once; nil entries contribute nothing. -/
theorem aggregate_spec (errs : List (Option GoError)) :
    ((aggregate errs).IsSuccess = true ↔ ∀ e ∈ errs, e = none) ∧
    (aggregate errs).Message = errs.filterMap (fun e => e.map GoError.Error) ∧
    (aggregate errs).Message.length = (errs.filter (fun e => e.isSome)).length := by
  have hm : (aggregate errs).Message = errs.filterMap (fun e => e.map GoError.Error) := by
    simp [aggregate, collectMessages_eq]
  refine ⟨?_, hm, ?_⟩
  · have : (aggregate errs).IsSuccess = ((aggregate errs).Message.length == 0) := rfl
    rw [this, hm, ← filterMap_error_eq_nil]
    simp
  · rw [hm]
    induction errs with
    | nil => rfl
    | cons e rest ih =>
      cases e with
      | none => simpa using ih (by simp [aggregate, collectMessages_eq])
      | some err => simpa using ih (by simp [aggregate, collectMessages_eq])

/-! ## One iteration of `fruitWorker` -/

theorem fruitWorkerBody_found (m : Mongo) (order target : Fruit) (hok : m.nextOk = true)
    (hfind : findDoc m.docs order.Name = some target) :
    fruitWorkerBody m order = fruitWorkerWrite (m.call (.findOne order.Name)).2 order (some target) := by
  unfold fruitWorkerBody fruitWorkerRead
  rw [GetFruitByName_found m order.Name hok target hfind]

/-- The branch of `fruitWorker` for a missing record is never taken: on a name
without a document the worker sends the text of the error of
`GetFruitByName` and returns. -/
theorem fruitWorkerBody_missing (m : Mongo) (order : Fruit) (hok : m.nextOk = true)
    (hfind : findDoc m.docs order.Name = none) :
    fruitWorkerBody m order =
      ⟨(m.call (.findOne order.Name)).2, [some (.new "查無此水果: ")], .ret⟩ := by
  unfold fruitWorkerBody fruitWorkerRead
  rw [GetFruitByName_missing m order.Name hok hfind]
  rfl

/-- The branch of `restockWorker` for a missing record is never taken either:
on a name without a document the worker sends the text of the error of
`GetFruitByName` and returns, without insert and without write. -/
theorem restockWorkerBody_missing (m : Mongo) (fruit : Fruit) (hok : m.nextOk = true)
    (hfind : findDoc m.docs fruit.Name = none) :
    restockWorkerBody m fruit =
      ⟨(m.call (.findOne fruit.Name)).2, [some (.new "查無此水果: ")], .ret⟩ := by
  unfold restockWorkerBody restockWorkerRead
  rw [GetFruitByName_missing m fruit.Name hok hfind]
  rfl

/-- The rejection of `fruitWorker` under the test of the code: after a
successful read, a negative remaining quantity `current - requested`, as
computed in `int`, makes the worker send `"<name> 庫存不足"` and return with the
read as its only driver call. -/
theorem fruitWorkerBody_rejects_of_remaining_neg (m : Mongo) (order target : Fruit)
    (hok : m.nextOk = true) (hfind : findDoc m.docs order.Name = some target)
    (hrem : (target.Quantity.sub order.Quantity).val < 0) :
    (fruitWorkerBody m order).sent = [some (.new (order.Name ++ " 庫存不足"))] ∧
    (fruitWorkerBody m order).flow = .ret ∧
    (fruitWorkerBody m order).mongo.docs = m.docs ∧
    (fruitWorkerBody m order).mongo.calls = m.calls ++ [.findOne order.Name] := by
  have hw : fruitWorkerWrite (m.call (.findOne order.Name)).2 order (some target) =
      ⟨(m.call (.findOne order.Name)).2, [some (.new (order.Name ++ " 庫存不足"))], .ret⟩ := by
    unfold fruitWorkerWrite
    simp only [if_neg (not_le.mpr hrem)]
  rw [fruitWorkerBody_found m order target hok hfind, hw]
  exact ⟨rfl, rfl, call_docs _ _, call_calls _ _⟩

/-- Claim C2 as amended. A consume request whose quantity exceeds the recorded
quantity of its name, that recorded quantity being not negative, is rejected
by `fruitWorker`: after the successful read it sends the error
`"<name> 庫存不足"` and returns; the only driver call it issues is the read, so
no write, and the documents of the store are as before. -/
theorem fruitWorker_rejects_insufficient (m : Mongo) (order target : Fruit)
    (hok : m.nextOk = true) (hfind : findDoc m.docs order.Name = some target)
    (hstock : 0 ≤ target.Quantity.val)
    (hexceeds : target.Quantity.val < order.Quantity.val) :
    (fruitWorkerBody m order).sent = [some (.new (order.Name ++ " 庫存不足"))] ∧
    (fruitWorkerBody m order).flow = .ret ∧
    (fruitWorkerBody m order).mongo.docs = m.docs ∧
    (fruitWorkerBody m order).mongo.calls = m.calls ++ [.findOne order.Name] :=
  fruitWorkerBody_rejects_of_remaining_neg m order target hok hfind
    (remaining_neg_of_exceeds target.Quantity order.Quantity hstock hexceeds)

/-- Witness of claim C2 as amended: stock 6 (what is left of 10 after a request
of 4) and a request of 8. -/
theorem fruitWorker_rejects_insufficient_witness :
    (fruitWorkerBody (store [apple 6]) (apple 8)).sent
      = [some (.new ("apple" ++ " 庫存不足"))] ∧
    (fruitWorkerBody (store [apple 6]) (apple 8)).flow = .ret ∧
    (fruitWorkerBody (store [apple 6]) (apple 8)).mongo.docs = [apple 6] ∧
    (fruitWorkerBody (store [apple 6]) (apple 8)).mongo.calls = [] ++ [.findOne "apple"] :=
  fruitWorker_rejects_insufficient (store [apple 6]) (apple 8) (apple 6)
    (by decide) (by decide) (by decide) (by decide)

/-- Counterexample to claim C2. The store records the quantity -2 for apple and
the request is for the largest `int`, which exceeds -2; the subtraction of
`fruitWorker` wraps around to the largest `int`, which is not negative, so the
worker does not reject the request: it writes that quantity, sends nil and
goes on with its loop. -/
theorem fruitWorker_accepts_request_exceeding_negative_stock :
    findDoc (store [apple (-2)]).docs "apple" = some (apple (-2)) ∧
    (apple (-2)).Quantity.val < (apple 9223372036854775807).Quantity.val ∧
    (fruitWorkerBody (store [apple (-2)]) (apple 9223372036854775807)).sent = [none] ∧
    (fruitWorkerBody (store [apple (-2)]) (apple 9223372036854775807)).flow = .next ∧
    (fruitWorkerBody (store [apple (-2)]) (apple 9223372036854775807)).mongo.calls
      = [.findOne "apple", .updateOne "apple" (GoInt.ofInt 9223372036854775807)] ∧
    (fruitWorkerBody (store [apple (-2)]) (apple 9223372036854775807)).mongo.docs
      = [apple 9223372036854775807] := by
  decide

/-- Claim C8, evaluated on the code. A consume request for `"kiwi"` on a store
without such a record: `fruitWorker` sends the error text of `GetFruitByName`,
`"查無此水果: "`, not its own text `"kiwi 倉庫無此種類"`; it issues no write. -/
theorem fruitWorker_missing_sends_store_text :
    fruitWorkerBody (store []) (kiwi 1)
      = ⟨⟨[], [], [.findOne "kiwi"]⟩, [some (.new "查無此水果: ")], .ret⟩ ∧
    (fruitWorkerBody (store []) (kiwi 1)).sent
      ≠ [some (.new ("kiwi" ++ " 倉庫無此種類"))] := by
  decide

/-! ## The transition system: structure of a move -/

theorem mem_workerSuccs (s t : PState) (pre rest : List Worker) :
    t ∈ workerSuccs s pre rest ↔
      ∃ p w q r, rest = p ++ w :: q ∧
        stepWorker s.kind s.phase.closed s.mongo w = some r ∧
        t = applyWStep s (pre ++ p) w q r := by
  induction rest generalizing pre with
  | nil => simp [workerSuccs]
  | cons w post ih =>
    unfold workerSuccs
    rw [List.mem_append, ih]
    constructor
    · rintro (h | ⟨p, w1, q, r, hrest, hstep, ht⟩)
      · cases hs : stepWorker s.kind s.phase.closed s.mongo w with
        | none => rw [hs] at h; simp at h
        | some r =>
          rw [hs] at h
          simp at h
          exact ⟨[], w, post, r, rfl, hs, by simpa using h⟩
      · exact ⟨w :: p, w1, q, r, by simp [hrest], hstep, by simpa using ht⟩
    · rintro ⟨p, w1, q, r, hrest, hstep, ht⟩
      cases p with
      | nil =>
        simp at hrest
        obtain ⟨rfl, rfl⟩ := hrest
        left
        rw [hstep]
        simpa using ht
      | cons a p1 =>
        simp at hrest
        obtain ⟨rfl, rfl⟩ := hrest
        right
        exact ⟨p1, w1, q, r, rfl, hstep, by simpa using ht⟩

/-- A move is a move of the handler goroutine or of one worker. -/
theorem step_cases {s t : PState} (h : Step s t) :
    stepDispatcher s = some t ∨
      ∃ p w q r, s.workers = p ++ w :: q ∧
        stepWorker s.kind s.phase.closed s.mongo w = some r ∧
        t = applyWStep s p w q r := by
  unfold Step successors at h
  split at h
  · simp at h
  · rw [List.mem_append] at h
    rcases h with h | h
    · left
      cases hd : stepDispatcher s with
      | none => rw [hd] at h; simp at h
      | some u => rw [hd] at h; simp at h; rw [h]
    · right
      rw [mem_workerSuccs] at h
      simpa using h

/-- A set of states that holds the start and is closed under moves holds every
reachable state. -/
theorem reach_subset (L : List PState) (s0 : PState) (h0 : s0 ∈ L)
    (hcl : ∀ s ∈ L, ∀ t ∈ successors s, t ∈ L) : ∀ t, Reach s0 t → t ∈ L := by
  intro t h
  induction h with
  | refl => exact h0
  | tail _ hstep ih => exact hcl _ ih _ hstep

/-- An invariant of the moves holds at every reachable state. -/
theorem reach_invariant (P : PState → Prop) (hstep : ∀ s t, P s → Step s t → P t)
    {s t : PState} (h : Reach s t) (hs : P s) : P t := by
  induction h with
  | refl => exact hs
  | tail _ hst ih => exact hstep _ _ ih hst

/-- The scheduler `runFirst` follows moves. -/
theorem reach_runFirst (n : Nat) (s : PState) : Reach s (runFirst n s) := by
  induction n generalizing s with
  | zero => exact Relation.ReflTransGen.refl
  | succ k ih =>
    unfold runFirst
    cases hs : successors s with
    | nil => exact Relation.ReflTransGen.refl
    | cons t rest =>
      have hst : Step s t := by unfold Step; rw [hs]; exact List.mem_cons_self _ _
      exact Relation.ReflTransGen.head hst (ih t)

/-! ## The code on concrete batches -/

theorem orderShort_reach (t : PState) (h : Reach orderShort t) : t ∈ orderShortStates :=
  reach_subset orderShortStates orderShort (by decide) (by decide) t h

theorem orderUnknown_reach (t : PState) (h : Reach orderUnknown t) : t ∈ orderUnknownStates :=
  reach_subset orderUnknownStates orderUnknown (by decide) (by decide) t h

theorem orderTwoNames_reach (t : PState) (h : Reach orderTwoNames t) :
    t ∈ orderTwoNamesStates :=
  reach_subset orderTwoNamesStates orderTwoNames (by decide) (by decide) t h

theorem restockOne_reach (t : PState) (h : Reach restockOne t) : t ∈ restockOneStates :=
  reach_subset restockOneStates restockOne (by decide) (by decide) t h

theorem restockUnknown_reach (t : PState) (h : Reach restockUnknown t) :
    t ∈ restockUnknownStates :=
  reach_subset restockUnknownStates restockUnknown (by decide) (by decide) t h

/-- Claim C4, evaluated on the code. With stock 6 of apple and the orders 8 and
1 for apple, no scheduling lets `HandleOrderFruits` return: the worker returns
after rejecting the first order, and the handler stays in the dispatch loop,
blocked in the send of the second order, in a state where no goroutine can
move. -/
theorem HandleOrderFruits_blocks_forever :
    (∀ t, Reach orderShort t → ∀ resp, t.phase ≠ .returned resp) ∧
    Reach orderShort (runFirst 3 orderShort) ∧
    Terminal (runFirst 3 orderShort) ∧
    (runFirst 3 orderShort).phase = .dispatching [apple 1] ∧
    (runFirst 3 orderShort).workers = [⟨"apple", .exited⟩] := by
  refine ⟨?_, reach_runFirst 3 orderShort, by decide, by decide, by decide⟩
  intro t ht resp
  have hall : ∀ u ∈ orderShortStates,
      u.phase = .dispatching [apple 8, apple 1] ∨ u.phase = .dispatching [apple 1] := by
    decide
  rcases hall t (orderShort_reach t ht) with h | h <;> simp [h]

/-- Counterexample to claim C3. On an empty store with two orders for kiwi, the
worker returns after the first order has failed: under every scheduling the
second order stays in the dispatch loop and the outcome channel never holds
more than the one failing outcome, so the second order gets no outcome at
all; the run ends with the worker returned and the handler blocked. -/
theorem fruitWorker_exits_without_skipping :
    (∀ t, Reach orderUnknown t →
      t.errChannel.length ≤ 1 ∧
      (t.phase = .dispatching [kiwi 1, kiwi 2] ∨ t.phase = .dispatching [kiwi 2])) ∧
    Reach orderUnknown (runFirst 2 orderUnknown) ∧
    Terminal (runFirst 2 orderUnknown) ∧
    (runFirst 2 orderUnknown).workers = [⟨"kiwi", .exited⟩] ∧
    (runFirst 2 orderUnknown).errChannel = [("kiwi", some (.new "查無此水果: "))] := by
  refine ⟨?_, reach_runFirst 2 orderUnknown, by decide, by decide, by decide⟩
  intro t ht
  have hall : ∀ u ∈ orderUnknownStates, u.errChannel.length ≤ 1 ∧
      (u.phase = .dispatching [kiwi 1, kiwi 2] ∨ u.phase = .dispatching [kiwi 2]) := by
    decide
  exact hall t (orderUnknown_reach t ht)

/-- Claim C5, evaluated on the code. With stock 1 of apple and one restock of 5,
`HandleRestock` succeeds and writes quantity 6, yet under every scheduling
the outcome channel stays empty: the batch has one request and the workers
send no outcome for it. -/
theorem HandleRestock_success_sends_no_outcome :
    (∀ t, Reach restockOne t → t.errChannel.length = 0) ∧
    (∀ t, Reach restockOne t → Terminal t →
      t.phase = .returned ⟨[], true⟩ ∧ t.mongo.docs = [apple 6]) ∧
    Reach restockOne (runFirst 6 restockOne) ∧
    Terminal (runFirst 6 restockOne) ∧
    [apple 5].length = 1 := by
  refine ⟨?_, ?_, reach_runFirst 6 restockOne, by decide, rfl⟩
  · intro t ht
    have hall : ∀ u ∈ restockOneStates, u.errChannel.length = 0 := by decide
    exact hall t (restockOne_reach t ht)
  · intro t ht
    have hall : ∀ u ∈ restockOneStates, Terminal u →
        u.phase = .returned ⟨[], true⟩ ∧ u.mongo.docs = [apple 6] := by decide
    exact hall t (restockOne_reach t ht)

/-- Claim C7, evaluated on the code. A restock of 5 kiwi on a store without
kiwi: `restockWorker` gets from `GetFruitByName` an error that is not the
driver's sentinel, sends its text and returns without insert or write; under
every scheduling the store stays without documents, and the handler returns
the failure. -/
theorem HandleRestock_unknown_name_creates_nothing :
    restockWorkerBody (store []) (kiwi 5)
      = ⟨⟨[], [], [.findOne "kiwi"]⟩, [some (.new "查無此水果: ")], .ret⟩ ∧
    (∀ t, Reach restockUnknown t → t.mongo.docs = [] ∧ quantityOf t.mongo.docs "kiwi" = none) ∧
    (∀ t, Reach restockUnknown t → Terminal t →
      t.phase = .returned ⟨["查無此水果: "], false⟩) ∧
    Reach restockUnknown (runFirst 4 restockUnknown) ∧
    Terminal (runFirst 4 restockUnknown) := by
  refine ⟨by decide, ?_, ?_, reach_runFirst 4 restockUnknown, by decide⟩
  · intro t ht
    have hall : ∀ u ∈ restockUnknownStates,
        u.mongo.docs = [] ∧ quantityOf u.mongo.docs "kiwi" = none := by decide
    exact hall t (restockUnknown_reach t ht)
  · intro t ht
    have hall : ∀ u ∈ restockUnknownStates, Terminal u →
        u.phase = .returned ⟨["查無此水果: "], false⟩ := by decide
    exact hall t (restockUnknown_reach t ht)

/-- Claim C10, evaluated on the code. With stock of apple and banana and the
orders apple 8, apple 1, banana 1, the batch has two distinct names, yet under
every scheduling the dispatch loop of `HandleOrderFruits` starts one worker
only and none for banana: it blocks in the send of the second order for
apple, whose worker has returned, and the order for banana is never sent. -/
theorem dispatch_loop_never_starts_second_worker :
    (distinctNames [apple 8, apple 1, banana 1]).length = 2 ∧
    (∀ t, Reach orderTwoNames t →
      t.workers.length ≤ 1 ∧ (∀ w ∈ t.workers, w.name ≠ "banana") ∧
      (t.phase = .dispatching [apple 8, apple 1, banana 1] ∨
        t.phase = .dispatching [apple 1, banana 1])) ∧
    Reach orderTwoNames (runFirst 3 orderTwoNames) ∧
    Terminal (runFirst 3 orderTwoNames) := by
  refine ⟨by decide, ?_, reach_runFirst 3 orderTwoNames, by decide⟩
  intro t ht
  have hall : ∀ u ∈ orderTwoNamesStates,
      u.workers.length ≤ 1 ∧ (∀ w ∈ u.workers, w.name ≠ "banana") ∧
      (u.phase = .dispatching [apple 8, apple 1, banana 1] ∨
        u.phase = .dispatching [apple 1, banana 1]) := by decide
  exact hall t (orderTwoNames_reach t ht)

theorem workersWeight_append (p q : List Worker) :
    workersWeight (p ++ q) = workersWeight p + workersWeight q := by
  induction p with
  | nil => simp [workersWeight]
  | cons a p ih => simp [workersWeight, ih]; omega

theorem dispatch_weight (ws ws1 : List Worker) (o : Fruit) (h : dispatch ws o = some ws1) :
    workersWeight ws1 ≤ workersWeight ws + 3 := by
  induction ws generalizing ws1 with
  | nil =>
    simp [dispatch] at h
    subst h
    simp [workersWeight, WState.weight]
  | cons w ws ih =>
    unfold dispatch at h
    split at h
    · split at h
      · simp at h
        subst h
        rename_i hst
        simp [workersWeight, WState.weight, hst]
        omega
      · simp at h
    · cases hd : dispatch ws o with
      | none => rw [hd] at h; simp at h
      | some ws2 =>
        rw [hd] at h
        simp at h
        subst h
        have := ih ws2 hd
        simp [workersWeight]
        omega

theorem stepWorker_weight (kind : Kind) (closed : Bool) (m : Mongo) (w : Worker) (r : WStep)
    (h : stepWorker kind closed m w = some r) :
    (r.panicked = false ∧ r.worker.st.weight < w.st.weight) ∨
    (r.panicked = true ∧ r.worker = w) := by
  unfold stepWorker at h
  split at h
  · split at h
    · simp at h; subst h; left; simp [WState.weight, *]
    · simp at h
  · split at h
    · simp at h; subst h; left; simp [WState.weight, *]
    · simp at h; subst h; left; simp [WState.weight, *]
  · split at h
    · simp at h; subst h; left; simp [WState.weight, *]
    · simp at h; subst h; left; simp [WState.weight, *]
    · simp at h; subst h; right; simp
  · simp at h

theorem step_not_crashed {s t : PState} (h : Step s t) : s.phase ≠ .crashed := by
  intro hc
  unfold Step successors at h
  rw [hc] at h
  simp at h

theorem phase_weight_pos (ph : Phase) (h : ph ≠ .crashed) : 0 < ph.weight := by
  cases ph <;> simp [Phase.weight] at *

/-- Every move lowers the weight of the state. -/
theorem step_weight {s t : PState} (h : Step s t) : t.weight < s.weight := by
  have hnc := step_not_crashed h
  rcases step_cases h with hd | ⟨p, w, q, r, hws, hw, rfl⟩
  · unfold stepDispatcher at hd
    split at hd
    · simp at hd; subst hd
      rename_i hph
      simp [PState.weight, Phase.weight, hph]
    · rename_i o rest hph
      cases hdp : dispatch s.workers o with
      | none => rw [hdp] at hd; simp at hd
      | some ws1 =>
        rw [hdp] at hd
        simp at hd
        subst hd
        have := dispatch_weight _ _ _ hdp
        simp [PState.weight, Phase.weight, hph]
        omega
    · rename_i hph
      split at hd
      · simp at hd; subst hd
        simp [PState.weight, Phase.weight, hph]
      · simp at hd
    · simp at hd
    · simp at hd
  · have hpos := phase_weight_pos s.phase hnc
    rcases stepWorker_weight _ _ _ _ _ hw with ⟨hp, hlt⟩ | ⟨hp, heq⟩
    · simp only [PState.weight, applyWStep, hp, hws, workersWeight_append, workersWeight]
      simp
      omega
    · have hc : Phase.crashed.weight = 0 := rfl
      simp only [PState.weight, applyWStep, hp, hws, workersWeight_append, workersWeight, heq]
      simp [hc]
      omega

/-- Termination: no run of a handler is infinite. -/
theorem step_wellFounded : WellFounded (fun t s : PState => Step s t) :=
  Subrelation.wf (fun {_ _} h => step_weight h) (InvImage.wf PState.weight Nat.lt_wfRel.wf)

/-- From every state a state where no goroutine can move is reachable. -/
theorem reach_terminal (s : PState) : ∃ t, Reach s t ∧ Terminal t := by
  induction s using step_wellFounded.induction with
  | _ s ih =>
    cases hs : successors s with
    | nil => exact ⟨s, Relation.ReflTransGen.refl, hs⟩
    | cons u rest =>
      have hst : Step s u := by unfold Step; rw [hs]; exact List.mem_cons_self _ _
      obtain ⟨t, hut, ht⟩ := ih u hst
      exact ⟨t, Relation.ReflTransGen.head hst hut, ht⟩

/-! ## A batch of orders for one name -/

theorem qsum_append (a b : List Fruit) : qsum (a ++ b) = qsum a + qsum b := by
  induction a with
  | nil => simp [qsum]
  | cons o a ih => simp [qsum, ih]; omega

theorem qsum_nonneg (l : List Fruit) (h : ∀ o ∈ l, 0 ≤ o.Quantity.val) : 0 ≤ qsum l := by
  induction l with
  | nil => simp [qsum]
  | cons o l ih =>
    have h1 := h o (List.mem_cons_self _ _)
    have h2 := ih (fun x hx => h x (List.mem_cons_of_mem _ hx))
    simp [qsum]; omega

theorem orderCalls_append (n : String) (cur : Int) (a b : List Fruit) :
    orderCalls n cur (a ++ b) = orderCalls n cur a ++ orderCalls n (cur - qsum a) b := by
  induction a generalizing cur with
  | nil => simp [orderCalls, qsum]
  | cons o a ih =>
    have h1 : cur - (o.Quantity.val + qsum a) = cur - o.Quantity.val - qsum a := by omega
    have h2 := ih (cur - o.Quantity.val)
    simp only [List.cons_append, orderCalls, qsum, h1]
    exact congrArg (fun l => Call.findOne n :: Call.updateOne n _ :: l) h2

theorem quantityOf_some {docs : List Fruit} {n : String} {c : GoInt}
    (h : quantityOf docs n = some c) : ∃ d, findDoc docs n = some d ∧ d.Quantity = c := by
  unfold quantityOf at h
  cases hd : findDoc docs n with
  | none => rw [hd] at h; simp at h
  | some d => rw [hd] at h; simp at h; exact ⟨d, rfl, h⟩

theorem findDoc_setQuantity {docs : List Fruit} {n : String} {d : Fruit} (v : GoInt)
    (h : findDoc docs n = some d) :
    findDoc (setQuantity docs n v) n = some { d with Quantity := v } := by
  induction docs with
  | nil => simp [findDoc] at h
  | cons a docs ih =>
    unfold findDoc at h
    unfold setQuantity
    by_cases ha : a.Name = n
    · simp only [ha, if_true] at h ⊢
      simp at h
      subst h
      simp [findDoc, ha]
    · simp only [ha, if_false] at h ⊢
      simp [findDoc, ha, ih h]

theorem quantityOf_setQuantity {docs : List Fruit} {n : String} {d : Fruit} (v : GoInt)
    (h : findDoc docs n = some d) : quantityOf (setQuantity docs n v) n = some v := by
  unfold quantityOf
  rw [findDoc_setQuantity v h]
  rfl

/-- A successful read in `fruitWorker`. -/
theorem fruitWorkerRead_ok (m : Mongo) (o d : Fruit) (hf : m.faults = [])
    (hd : findDoc m.docs o.Name = some d) :
    fruitWorkerRead m o = .proceed ⟨m.docs, [], m.calls ++ [.findOne o.Name]⟩ (some d) := by
  unfold fruitWorkerRead
  rw [GetFruitByName_found m o.Name (nextOk_of_nil m hf) d hd, call_ok m _ hf]
  simp [hf]

/-- A successful write in `fruitWorker`. -/
theorem fruitWorkerWrite_ok (m : Mongo) (o target d : Fruit) (hf : m.faults = [])
    (hd : findDoc m.docs o.Name = some d)
    (hrem : 0 ≤ (target.Quantity.sub o.Quantity).val) :
    fruitWorkerWrite m o (some target) =
      ⟨⟨setQuantity m.docs o.Name (target.Quantity.sub o.Quantity), [],
          m.calls ++ [.updateOne o.Name (target.Quantity.sub o.Quantity)]⟩, [none], .next⟩ := by
  unfold fruitWorkerWrite
  simp only [hrem, if_true]
  unfold UpdateFruitQuantityByName UpdateOne
  rw [call_ok m _ hf]
  simp [hd, hf]

theorem singleton_split {a w : Worker} {p q : List Worker} (h : [a] = p ++ w :: q) :
    p = [] ∧ w = a ∧ q = [] := by
  cases p with
  | nil => simp at h; exact ⟨rfl, h.1.symm, h.2⟩
  | cons b p => simp at h

theorem step_of_dispatcher {s t : PState} (h : stepDispatcher s = some t) : Step s t := by
  unfold Step successors
  split
  · rename_i hph
    unfold stepDispatcher at h
    rw [hph] at h
    simp at h
  · rw [h]; simp

theorem step_of_worker {s : PState} (p q : List Worker) {w : Worker} {r : WStep}
    (hnc : s.phase ≠ .crashed) (hws : s.workers = p ++ w :: q)
    (h : stepWorker s.kind s.phase.closed s.mongo w = some r) :
    Step s (applyWStep s p w q r) := by
  unfold Step successors
  split
  · rename_i hph; exact absurd hph hnc
  · rw [List.mem_append]
    right
    rw [mem_workerSuccs]
    exact ⟨p, w, q, r, hws, h, by simp⟩

theorem oneNameInv_init (n : String) (q : GoInt) (m : Mongo) (reqs : List Fruit)
    (hf : m.faults = []) (hq : quantityOf m.docs n = some q) :
    OneNameInv n q m.calls reqs (init .order m reqs) := by
  refine ⟨rfl, hf, [], reqs, q, [], rfl, hq, by simp [qsum], rfl, by simp [init, orderCalls], ?_⟩
  exact OneNameShape.idle reqs [] (Or.inl rfl)

theorem oneNameInv_step (n : String) (q : GoInt) (calls0 : List Call) (reqs : List Fruit)
    (hname : ∀ o ∈ reqs, o.Name = n) (hnn : ∀ o ∈ reqs, 0 ≤ o.Quantity.val)
    (hsum : qsum reqs ≤ q.val) {s t : PState}
    (hinv : OneNameInv n q calls0 reqs s) (hst : Step s t) : OneNameInv n q calls0 reqs t := by
  obtain ⟨kind, phase, workers, mongo, errs⟩ := s
  obtain ⟨hk, hf, done, rest, cur, tail, hreqs, hcur, hval, herrs, hcalls, hshape⟩ := hinv
  simp only at hk hf hcur herrs hcalls hshape
  subst hk
  rcases step_cases hst with hd | ⟨p, w, qq, r, hws, hw, rfl⟩
  · cases hshape with
    | idle rest ws hw =>
      cases rest with
      | nil =>
        simp [stepDispatcher] at hd
        subst hd
        refine ⟨rfl, hf, done, [], cur, [], hreqs, hcur, hval, herrs, hcalls, ?_⟩
        exact OneNameShape.closed _ (by rcases hw with h | h <;> simp [h])
      | cons o rest =>
        have ho : o.Name = n := hname o (by rw [hreqs]; simp)
        rcases hw with rfl | rfl
        · simp [stepDispatcher, dispatch] at hd
          subst hd
          refine ⟨rfl, hf, done, o :: rest, cur, [], hreqs, hcur, hval, herrs, hcalls, ?_⟩
          simp only [ho]
          exact OneNameShape.got o rest _ (Or.inl rfl)
        · simp [stepDispatcher, dispatch, ho] at hd
          subst hd
          refine ⟨rfl, hf, done, o :: rest, cur, [], hreqs, hcur, hval, herrs, hcalls, ?_⟩
          exact OneNameShape.got o rest _ (Or.inl rfl)
    | got o rest ph hph =>
      rcases hph with rfl | ⟨rfl, rfl⟩
      · cases rest with
        | nil =>
          simp [stepDispatcher] at hd
          subst hd
          refine ⟨rfl, hf, done, [o], cur, [], hreqs, hcur, hval, herrs, hcalls, ?_⟩
          exact OneNameShape.got o [] _ (Or.inr ⟨rfl, rfl⟩)
        | cons o1 rest =>
          have ho1 : o1.Name = n := hname o1 (by rw [hreqs]; simp)
          simp [stepDispatcher, dispatch, ho1] at hd
      · simp [stepDispatcher] at hd
    | read o rest ph target htarget hph =>
      rcases hph with rfl | ⟨rfl, rfl⟩
      · cases rest with
        | nil =>
          simp [stepDispatcher] at hd
          subst hd
          refine ⟨rfl, hf, done, [o], cur, _, hreqs, hcur, hval, herrs, hcalls, ?_⟩
          exact OneNameShape.read o [] _ target htarget (Or.inr ⟨rfl, rfl⟩)
        | cons o1 rest =>
          have ho1 : o1.Name = n := hname o1 (by rw [hreqs]; simp)
          simp [stepDispatcher, dispatch, ho1] at hd
      · simp [stepDispatcher] at hd
    | closed ws hw =>
      rcases hw with rfl | rfl | rfl
      · simp [stepDispatcher] at hd
        subst hd
        refine ⟨rfl, hf, done, [], cur, [], hreqs, hcur, hval, herrs, hcalls, ?_⟩
        exact OneNameShape.returned _ (Or.inl rfl)
      · simp [stepDispatcher] at hd
      · simp [stepDispatcher] at hd
        subst hd
        refine ⟨rfl, hf, done, [], cur, [], hreqs, hcur, hval, herrs, hcalls, ?_⟩
        exact OneNameShape.returned _ (Or.inr rfl)
    | returned ws hw => simp [stepDispatcher] at hd
  · simp only at hws hw
    cases hshape with
    | idle rest ws hws1 =>
      rcases hws1 with rfl | rfl
      · simp at hws
      · obtain ⟨rfl, rfl, rfl⟩ := singleton_split hws
        simp [stepWorker, Phase.closed] at hw
    | got o rest ph hph =>
      obtain ⟨rfl, rfl, rfl⟩ := singleton_split hws
      have ho : o.Name = n := hname o (by rw [hreqs]; simp)
      obtain ⟨d, hd, hdq⟩ := quantityOf_some hcur
      rw [← ho] at hd
      simp [stepWorker, readPhase, fruitWorkerRead_ok mongo o d hf hd] at hw
      subst hw
      refine ⟨rfl, rfl, done, o :: rest, cur, [.findOne n], hreqs, hcur, hval,
        by simpa [applyWStep] using herrs, by simp [applyWStep, hcalls, ho], ?_⟩
      simp only [applyWStep, List.map_nil, List.append_nil, List.nil_append]
      exact OneNameShape.read o rest _ d hdq (by simpa using hph)
    | read o rest ph target htarget hph =>
      obtain ⟨rfl, rfl, rfl⟩ := singleton_split hws
      have ho : o.Name = n := hname o (by rw [hreqs]; simp)
      have hoq : 0 ≤ o.Quantity.val := hnn o (by rw [hreqs]; simp)
      have hrest : 0 ≤ qsum rest :=
        qsum_nonneg rest (fun x hx => hnn x (by rw [hreqs]; simp [hx]))
      have hsplit : qsum reqs = qsum done + (o.Quantity.val + qsum rest) := by
        rw [hreqs, qsum_append]; rfl
      have hcur0 : 0 ≤ cur.val := by omega
      have hremv : (target.Quantity.sub o.Quantity).val = cur.val - o.Quantity.val := by
        rw [htarget]; exact remaining_val cur o.Quantity hcur0 hoq
      have hrem : 0 ≤ (target.Quantity.sub o.Quantity).val := by omega
      obtain ⟨d, hd, hdq⟩ := quantityOf_some hcur
      rw [← ho] at hd
      simp [stepWorker, writePhase, fruitWorkerWrite_ok mongo o target d hf hd hrem] at hw
      subst hw
      refine ⟨rfl, rfl, done ++ [o], rest, target.Quantity.sub o.Quantity, [],
        by simp [hreqs], ?_, ?_, ?_, ?_, ?_⟩
      · simp only [applyWStep]
        rw [← ho]
        exact quantityOf_setQuantity _ hd
      · rw [hremv, qsum_append]; simp [qsum]; omega
      · simp [applyWStep, herrs]
      · simp only [applyWStep, List.append_nil]
        rw [hcalls, orderCalls_append]
        simp [orderCalls, ho, GoInt.sub, htarget, hval]
      · simp only [applyWStep]
        rcases hph with rfl | ⟨rfl, rfl⟩
        · exact OneNameShape.idle rest _ (Or.inr rfl)
        · exact OneNameShape.closed _ (Or.inr (Or.inl rfl))
    | closed ws hws1 =>
      rcases hws1 with rfl | rfl | rfl
      · simp at hws
      · obtain ⟨rfl, rfl, rfl⟩ := singleton_split hws
        simp [stepWorker, Phase.closed] at hw
        subst hw
        refine ⟨rfl, hf, done, [], cur, [], hreqs, hcur, hval,
          by simpa [applyWStep] using herrs, by simpa [applyWStep] using hcalls, ?_⟩
        simp only [applyWStep, List.map_nil, List.append_nil, List.nil_append]
        exact OneNameShape.closed _ (Or.inr (Or.inr rfl))
      · obtain ⟨rfl, rfl, rfl⟩ := singleton_split hws
        simp [stepWorker] at hw
    | returned ws hws1 =>
      rcases hws1 with rfl | rfl
      · simp at hws
      · obtain ⟨rfl, rfl, rfl⟩ := singleton_split hws
        simp [stepWorker] at hw
theorem aggregate_all_nil (n : String) (l : List Fruit) :
    aggregate ((l.map (fun _ => ((n, none) : String × Option GoError))).map Prod.snd)
      = ⟨[], true⟩ := by
  have h : ∀ acc, collectMessages
      ((l.map (fun _ => ((n, none) : String × Option GoError))).map Prod.snd) acc = acc := by
    induction l with
    | nil => intro acc; rfl
    | cons o l ih => intro acc; simpa [collectMessages] using ih acc
  unfold aggregate
  simp only [h]
  rfl

theorem stepWorker_got_some (kind : Kind) (closed : Bool) (m : Mongo) (n : String) (o : Fruit) :
    ∃ r, stepWorker kind closed m ⟨n, .got o⟩ = some r := by
  unfold stepWorker
  simp only
  split <;> exact ⟨_, rfl⟩

theorem stepWorker_have_some (kind : Kind) (closed : Bool) (m : Mongo) (n : String) (o : Fruit)
    (target : Option Fruit) : ∃ r, stepWorker kind closed m ⟨n, .have o target⟩ = some r := by
  unfold stepWorker
  simp only
  split <;> exact ⟨_, rfl⟩

theorem terminal_no_step {s t : PState} (hterm : Terminal s) (h : Step s t) : False := by
  unfold Terminal at hterm
  unfold Step at h
  rw [hterm] at h
  simp at h

theorem oneNameInv_terminal (n : String) (q : GoInt) (calls0 : List Call) (reqs : List Fruit)
    (hname : ∀ o ∈ reqs, o.Name = n) {s : PState}
    (hinv : OneNameInv n q calls0 reqs s) (hterm : Terminal s) :
    OneNameGood n q calls0 reqs s := by
  obtain ⟨kind, phase, workers, mongo, errs⟩ := s
  obtain ⟨hk, hf, done, rest, cur, tail, hreqs, hcur, hval, herrs, hcalls, hshape⟩ := hinv
  simp only at hk hf hcur herrs hcalls hshape
  subst hk
  cases hshape with
  | idle rest ws hw =>
    exfalso
    cases rest with
    | nil => exact terminal_no_step hterm (step_of_dispatcher (by simp [stepDispatcher]; rfl))
    | cons o rest =>
      have ho : o.Name = n := hname o (by rw [hreqs]; simp)
      rcases hw with rfl | rfl
      · exact terminal_no_step hterm (step_of_dispatcher (by simp [stepDispatcher, dispatch]; rfl))
      · exact terminal_no_step hterm
          (step_of_dispatcher (by simp [stepDispatcher, dispatch, ho]; rfl))
  | got o rest ph hph =>
    exfalso
    obtain ⟨r, hr⟩ := stepWorker_got_some .order phase.closed mongo n o
    have hnc : phase ≠ .crashed := by rcases hph with rfl | ⟨_, rfl⟩ <;> simp
    exact terminal_no_step hterm (step_of_worker [] [] hnc rfl hr)
  | read o rest ph target htarget hph =>
    exfalso
    obtain ⟨r, hr⟩ := stepWorker_have_some .order phase.closed mongo n o (some target)
    have hnc : phase ≠ .crashed := by rcases hph with rfl | ⟨_, rfl⟩ <;> simp
    exact terminal_no_step hterm (step_of_worker [] [] hnc rfl hr)
  | closed ws hw =>
    exfalso
    rcases hw with rfl | rfl | rfl
    · exact terminal_no_step hterm (step_of_dispatcher (by simp [stepDispatcher]; rfl))
    · have hr : stepWorker .order Phase.waiting.closed mongo ⟨n, .recv⟩
          = some ⟨⟨n, .exited⟩, mongo, [], false⟩ := by simp [stepWorker, Phase.closed]
      exact terminal_no_step hterm (step_of_worker [] [] (by simp) rfl hr)
    · exact terminal_no_step hterm (step_of_dispatcher (by simp [stepDispatcher]; rfl))
  | returned ws hw =>
    have hdone : reqs = done := by simpa using hreqs
    subst hdone
    refine ⟨?_, herrs, by simpa using hcalls, cur, hcur, hval⟩
    simp only [herrs]
    rw [aggregate_all_nil]

/-- Claim C1. A batch of consume requests for one name `n`, with non-negative
quantities whose sum is at most the recorded quantity `q`, on a store whose
calls succeed: no run of `HandleOrderFruits` is infinite, a run to the end
exists, and every run to the end, under any scheduling, ends with the handler
returned with success and no message, one nil outcome per request, the driver
calls of the sequential application in submission order (a read and the write
of what remains, request after request), and the recorded quantity `q` minus
the sum of the requests. -/
theorem HandleOrderFruits_sequential (n : String) (q : GoInt) (m : Mongo) (reqs : List Fruit)
    (hf : m.faults = []) (hq : quantityOf m.docs n = some q)
    (hname : ∀ o ∈ reqs, o.Name = n) (hnn : ∀ o ∈ reqs, 0 ≤ o.Quantity.val)
    (hsum : qsum reqs ≤ q.val) :
    WellFounded (fun t s : PState => Step s t) ∧
    (∃ f, Reach (HandleOrderFruits m reqs) f ∧ Terminal f) ∧
    ∀ f, Reach (HandleOrderFruits m reqs) f → Terminal f →
      f.phase = .returned ⟨[], true⟩ ∧
      f.errChannel = reqs.map (fun _ => (n, none)) ∧
      f.mongo.calls = m.calls ++ orderCalls n q.val reqs ∧
      ∃ qf, quantityOf f.mongo.docs n = some qf ∧ qf.val = q.val - qsum reqs := by
  refine ⟨step_wellFounded, reach_terminal _, ?_⟩
  intro f hreach hterm
  have hinv : OneNameInv n q m.calls reqs f :=
    reach_invariant (OneNameInv n q m.calls reqs)
      (fun s t hs hst => oneNameInv_step n q m.calls reqs hname hnn hsum hs hst) hreach
      (oneNameInv_init n q m reqs hf hq)
  exact oneNameInv_terminal n q m.calls reqs hname hinv hterm

/-- Witness of claim C1: stock 10 of apple and the orders 4 and 4 give two nil
outcomes and the final quantity 2. -/
theorem HandleOrderFruits_sequential_witness :
    WellFounded (fun t s : PState => Step s t) ∧
    (∃ f, Reach (HandleOrderFruits (store [apple 10]) [apple 4, apple 4]) f ∧ Terminal f) ∧
    ∀ f, Reach (HandleOrderFruits (store [apple 10]) [apple 4, apple 4]) f → Terminal f →
      f.phase = .returned ⟨[], true⟩ ∧
      f.errChannel = [("apple", none), ("apple", none)] ∧
      f.mongo.calls = [.findOne "apple", .updateOne "apple" (GoInt.ofInt 6),
        .findOne "apple", .updateOne "apple" (GoInt.ofInt 2)] ∧
      ∃ qf, quantityOf f.mongo.docs "apple" = some qf ∧ qf.val = 2 :=
  HandleOrderFruits_sequential "apple" (GoInt.ofInt 10) (store [apple 10]) [apple 4, apple 4]
    rfl (by decide) (by decide) (by decide) (by decide)

/-! ## Invariants of every run -/

/-- What a pass of the dispatch loop does to the workers: it starts a worker
for a new name, or hands the request to the first worker of that name, which
stands at its receive. -/
theorem dispatch_some (ws ws1 : List Worker) (o : Fruit) (h : dispatch ws o = some ws1) :
    ((∀ w ∈ ws, w.name ≠ o.Name) ∧ ws1 = ws ++ [⟨o.Name, .got o⟩]) ∨
    (∃ p q, ws = p ++ ⟨o.Name, .recv⟩ :: q ∧ (∀ w ∈ p, w.name ≠ o.Name) ∧
      ws1 = p ++ ⟨o.Name, .got o⟩ :: q) := by
  induction ws generalizing ws1 with
  | nil =>
    simp [dispatch] at h
    left
    exact ⟨by simp, by simp [h]⟩
  | cons w ws ih =>
    unfold dispatch at h
    by_cases hn : w.name = o.Name
    · simp only [hn, if_true] at h
      split at h
      · rename_i hst
        simp at h
        right
        refine ⟨[], ws, ?_, by simp, by simp [h]⟩
        cases w
        simp_all
      · simp at h
    · simp only [hn, if_false] at h
      cases hd : dispatch ws o with
      | none => rw [hd] at h; simp at h
      | some ws2 =>
        rw [hd] at h
        simp at h
        subst h
        rcases ih ws2 hd with ⟨hall, rfl⟩ | ⟨p, q, rfl, hp, rfl⟩
        · left
          refine ⟨?_, by simp⟩
          intro x hx
          rcases List.mem_cons.mp hx with rfl | hx
          · exact hn
          · exact hall x hx
        · right
          refine ⟨w :: p, q, by simp, ?_, by simp⟩
          intro x hx
          rcases List.mem_cons.mp hx with rfl | hx
          · exact hn
          · exact hp x hx

/-- The pointer of a successful `GetFruitByName` is not nil. -/
theorem GetFruitByName_pointer (m : Mongo) (name : String) (p : Option Fruit) (m1 : Mongo)
    (h : GetFruitByName m name = ((p, none), m1)) :
    ∃ d, p = some d ∧ findDoc m.docs name = some d := by
  have hd := call_docs m (.findOne name)
  unfold GetFruitByName FindOneDecode at h
  rcases hcall : m.call (.findOne name) with ⟨e1, m2⟩
  rw [hcall] at h hd
  simp only at hd
  cases e1 with
  | some err => simp only at h; split at h <;> simp at h
  | none =>
    simp only at h
    cases hf : findDoc m2.docs name with
    | some d =>
      rw [hf] at h
      simp at h
      exact ⟨d, h.1.symm, by rw [← hd]; exact hf⟩
    | none => rw [hf] at h; simp [errorsIs] at h

/-- A worker goes on after the read with a pointer to a document of the store
under that name; the insert of `restockWorker` is never reached. -/
theorem readPhase_proceed (kind : Kind) (m : Mongo) (o : Fruit) (m1 : Mongo)
    (target : Option Fruit) (h : readPhase kind m o = .proceed m1 target) :
    ∃ d, target = some d ∧ findDoc m.docs o.Name = some d ∧
      m1 = (GetFruitByName m o.Name).2 := by
  rcases hg : GetFruitByName m o.Name with ⟨⟨p, e⟩, m2⟩
  cases kind with
  | order =>
    simp only [readPhase, fruitWorkerRead, hg] at h
    cases e with
    | some err => simp only at h; split at h <;> simp at h
    | none =>
      simp at h
      obtain ⟨d, hp, hd⟩ := GetFruitByName_pointer m o.Name p m2 hg
      exact ⟨d, by rw [← h.2, hp], hd, h.1.symm⟩
  | restock =>
    simp only [readPhase, restockWorkerRead, hg] at h
    cases e with
    | some err =>
      have hs := GetFruitByName_not_sentinel m o.Name p err m2 hg
      simp [hs] at h
    | none =>
      simp at h
      obtain ⟨d, hp, hd⟩ := GetFruitByName_pointer m o.Name p m2 hg
      exact ⟨d, by rw [← h.2, hp], hd, h.1.symm⟩

/-- A read that fails has issued the read only. -/
theorem readPhase_failed (kind : Kind) (m : Mongo) (o : Fruit) (m1 : Mongo) (e : GoError)
    (h : readPhase kind m o = .failed m1 e) : m1 = (GetFruitByName m o.Name).2 := by
  rcases hg : GetFruitByName m o.Name with ⟨⟨p, err⟩, m2⟩
  cases kind with
  | order =>
    simp only [readPhase, fruitWorkerRead, hg] at h
    cases err with
    | some err => simp only at h; split at h <;> simp at h <;> exact h.1.symm
    | none => simp at h
  | restock =>
    simp only [readPhase, restockWorkerRead, hg] at h
    cases err with
    | some err =>
      have hs := GetFruitByName_not_sentinel m o.Name p err m2 hg
      simp [hs] at h
      exact h.1.symm
    | none => simp at h
theorem setQuantity_missing (docs : List Fruit) (n : String) (v : GoInt)
    (h : findDoc docs n = none) : setQuantity docs n v = docs := by
  induction docs with
  | nil => rfl
  | cons a docs ih =>
    unfold findDoc at h
    unfold setQuantity
    by_cases ha : a.Name = n
    · simp [ha] at h
    · simp only [ha, if_false] at h ⊢
      rw [ih h]

/-- What `UpdateFruitQuantityByName` does to the store: it logs the write, and
sets the quantity unless the driver fails. -/
theorem UpdateFruitQuantityByName_store (m : Mongo) (name : String) (v : GoInt) :
    (UpdateFruitQuantityByName m name v).2.calls = m.calls ++ [.updateOne name v] ∧
    (UpdateFruitQuantityByName m name v).2.faults = m.faults.tail ∧
    (((UpdateFruitQuantityByName m name v).1.2 = none ∧
        (UpdateFruitQuantityByName m name v).2.docs = setQuantity m.docs name v) ∨
      ((UpdateFruitQuantityByName m name v).1.2 ≠ none ∧
        (UpdateFruitQuantityByName m name v).2.docs = m.docs)) := by
  have hd := call_docs m (.updateOne name v)
  have hc := call_calls m (.updateOne name v)
  have hfl : (m.call (.updateOne name v)).2.faults = m.faults.tail := by
    unfold Mongo.call; split <;> simp_all
  unfold UpdateFruitQuantityByName UpdateOne
  rcases hcall : m.call (.updateOne name v) with ⟨e, m1⟩
  rw [hcall] at hd hc hfl
  simp only at hd hc hfl
  cases e with
  | some err => simp [hc, hd, hfl]
  | none =>
    simp only
    cases hf : findDoc m1.docs name with
    | some d => simp [hc, hd, hfl]
    | none =>
      simp only [hc, hfl, true_and]
      rw [hd] at hf
      rw [setQuantity_missing _ _ _ hf, hd]
      simp

/-- The second part of an iteration, entered with a pointer that is not nil:
it does not panic, sends at most one value, sends no error when the loop goes
on, and either leaves the store alone or issues one write of a value that is
not negative in `fruitWorker` and is the sum in `restockWorker`. -/
theorem writePhase_spec (kind : Kind) (m : Mongo) (o d : Fruit) :
    (writePhase kind m o (some d)).flow ≠ .panic ∧
    (writePhase kind m o (some d)).sent.length ≤ 1 ∧
    ((writePhase kind m o (some d)).flow = .next →
      ∀ x ∈ (writePhase kind m o (some d)).sent, x = none) ∧
    ((writePhase kind m o (some d)).mongo = m ∨
      ∃ v, (writePhase kind m o (some d)).mongo.calls = m.calls ++ [.updateOne o.Name v] ∧
        ((writePhase kind m o (some d)).mongo.docs = m.docs ∨
          (writePhase kind m o (some d)).mongo.docs = setQuantity m.docs o.Name v) ∧
        (kind = .order → 0 ≤ v.val) ∧
        (kind = .restock → v = d.Quantity.add o.Quantity)) := by
  cases kind with
  | order =>
    simp only [writePhase, fruitWorkerWrite]
    by_cases hrem : 0 ≤ (d.Quantity.sub o.Quantity).val
    · simp only [hrem, if_true]
      obtain ⟨hc, -, hdocs⟩ := UpdateFruitQuantityByName_store m o.Name (d.Quantity.sub o.Quantity)
      rcases hu : UpdateFruitQuantityByName m o.Name (d.Quantity.sub o.Quantity)
        with ⟨⟨c, e⟩, m1⟩
      rw [hu] at hc hdocs
      simp only at hc hdocs
      cases e with
      | some err =>
        refine ⟨by simp, by simp, by simp, Or.inr ⟨_, hc, ?_, fun _ => hrem, by simp⟩⟩
        rcases hdocs with ⟨h1, _⟩ | ⟨_, h2⟩
        · simp at h1
        · exact Or.inl h2
      | none =>
        refine ⟨by simp, by simp, by simp, Or.inr ⟨_, hc, ?_, fun _ => hrem, by simp⟩⟩
        rcases hdocs with ⟨_, h1⟩ | ⟨h2, _⟩
        · exact Or.inr h1
        · simp at h2
    · simp only [hrem, if_false]
      exact ⟨by simp, by simp, by simp, by simp⟩
  | restock =>
    simp only [writePhase, restockWorkerWrite]
    obtain ⟨hc, -, hdocs⟩ := UpdateFruitQuantityByName_store m o.Name (d.Quantity.add o.Quantity)
    rcases hu : UpdateFruitQuantityByName m o.Name (d.Quantity.add o.Quantity)
      with ⟨⟨c, e⟩, m1⟩
    rw [hu] at hc hdocs
    simp only at hc hdocs
    cases e with
    | some err =>
      refine ⟨by simp, by simp, by simp, Or.inr ⟨_, hc, ?_, by simp, fun _ => rfl⟩⟩
      rcases hdocs with ⟨h1, _⟩ | ⟨_, h2⟩
      · simp at h1
      · exact Or.inl h2
    | none =>
      refine ⟨by simp, by simp, by simp, Or.inr ⟨_, hc, ?_, by simp, fun _ => rfl⟩⟩
      rcases hdocs with ⟨_, h1⟩ | ⟨h2, _⟩
      · exact Or.inr h1
      · simp at h2

/-- The moves of a worker, case by case. -/
theorem stepWorker_cases (kind : Kind) (closed : Bool) (m : Mongo) (w : Worker) (r : WStep)
    (h : stepWorker kind closed m w = some r) :
    (w.st = .recv ∧ closed = true ∧ r = ⟨⟨w.name, .exited⟩, m, [], false⟩) ∨
    (∃ o m1 e, w.st = .got o ∧ readPhase kind m o = .failed m1 e ∧
      r = ⟨⟨w.name, .exited⟩, m1, [some e], false⟩) ∨
    (∃ o m1 target, w.st = .got o ∧ readPhase kind m o = .proceed m1 target ∧
      r = ⟨⟨w.name, .have o target⟩, m1, [], false⟩) ∨
    (∃ o target, w.st = .have o target ∧ (writePhase kind m o target).flow = .next ∧
      r = ⟨⟨w.name, .recv⟩, (writePhase kind m o target).mongo,
        (writePhase kind m o target).sent, false⟩) ∨
    (∃ o target, w.st = .have o target ∧ (writePhase kind m o target).flow = .ret ∧
      r = ⟨⟨w.name, .exited⟩, (writePhase kind m o target).mongo,
        (writePhase kind m o target).sent, false⟩) ∨
    (∃ o target, w.st = .have o target ∧ (writePhase kind m o target).flow = .panic ∧
      r = ⟨w, (writePhase kind m o target).mongo, (writePhase kind m o target).sent, true⟩) := by
  unfold stepWorker at h
  split at h
  · rename_i hst
    split at h
    · simp at h; exact Or.inl ⟨hst, by assumption, h.symm⟩
    · simp at h
  · rename_i o hst
    split at h
    · rename_i m1 e hr
      simp at h
      exact Or.inr (Or.inl ⟨o, m1, e, hst, hr, h.symm⟩)
    · rename_i m1 target hr
      simp at h
      exact Or.inr (Or.inr (Or.inl ⟨o, m1, target, hst, hr, h.symm⟩))
  · rename_i o target hst
    split at h
    · rename_i m1 sent hr
      simp at h
      refine Or.inr (Or.inr (Or.inr (Or.inl ⟨o, target, hst, ?_, ?_⟩)))
      · rw [hr]
      · rw [hr]; exact h.symm
    · rename_i m1 sent hr
      simp at h
      refine Or.inr (Or.inr (Or.inr (Or.inr (Or.inl ⟨o, target, hst, ?_, ?_⟩))))
      · rw [hr]
      · rw [hr]; exact h.symm
    · rename_i m1 sent hr
      simp at h
      refine Or.inr (Or.inr (Or.inr (Or.inr (Or.inr ⟨o, target, hst, ?_, ?_⟩))))
      · rw [hr]
      · rw [hr]; exact h.symm
  · simp at h

/-- The moves of the handler goroutine, case by case. -/
theorem stepDispatcher_cases {s t : PState} (h : stepDispatcher s = some t) :
    (s.phase = .dispatching [] ∧ t = { s with phase := .waiting }) ∨
    (∃ o rest ws, s.phase = .dispatching (o :: rest) ∧ dispatch s.workers o = some ws ∧
      t = { s with phase := .dispatching rest, workers := ws }) ∨
    (s.phase = .waiting ∧ (∀ w ∈ s.workers, w.st = .exited) ∧
      t = { s with phase := .returned (aggregate (s.errChannel.map Prod.snd)) }) := by
  unfold stepDispatcher at h
  split at h
  · rename_i hph
    simp at h
    exact Or.inl ⟨hph, h.symm⟩
  · rename_i o rest hph
    cases hd : dispatch s.workers o with
    | none => rw [hd] at h; simp at h
    | some ws =>
      rw [hd] at h
      simp at h
      exact Or.inr (Or.inl ⟨o, rest, ws, hph, hd, h.symm⟩)
  · rename_i hph
    split at h
    · rename_i hall
      simp at h
      exact Or.inr (Or.inr ⟨hph, by simpa using hall, h.symm⟩)
    · simp at h
  · simp at h
  · simp at h
theorem stepWorker_wf (kind : Kind) (closed : Bool) (m : Mongo) (w : Worker) (r : WStep)
    (h : stepWorker kind closed m w = some r) (hnil : ∀ o, w.st ≠ .have o none) :
    r.panicked = false ∧ r.worker.name = w.name ∧ w.st ≠ .exited ∧
    (∀ o, r.worker.st.request = some o → w.st.request = some o) ∧
    (∀ o, r.worker.st ≠ .have o none) ∧
    ((∃ x ∈ r.sent, x ≠ none) → r.worker.st = .exited) := by
  rcases stepWorker_cases kind closed m w r h with
    ⟨hst, -, rfl⟩ | ⟨o, m1, e, hst, -, rfl⟩ | ⟨o, m1, target, hst, hr, rfl⟩ |
    ⟨o, target, hst, hfl, rfl⟩ | ⟨o, target, hst, hfl, rfl⟩ | ⟨o, target, hst, hfl, rfl⟩
  · simp [hst, WState.request]
  · simp [hst, WState.request]
  · obtain ⟨d, rfl, -, -⟩ := readPhase_proceed kind m o m1 target hr
    simp [hst, WState.request]
  · cases target with
    | none => exact absurd hst (hnil o)
    | some d =>
      have hs := (writePhase_spec kind m o d).2.2.1 hfl
      refine ⟨rfl, rfl, by simp [hst], by simp [WState.request], by simp, ?_⟩
      rintro ⟨x, hx, hne⟩
      exact absurd (hs x hx) hne
  · simp [hst, WState.request]
  · cases target with
    | none => exact absurd hst (hnil o)
    | some d => exact absurd hfl (writePhase_spec kind m o d).1

theorem nodup_names_split {p q : List Worker} {w : Worker}
    (h : ((p ++ w :: q).map Worker.name).Nodup) :
    (∀ x ∈ p, x.name ≠ w.name) ∧ (∀ x ∈ q, x.name ≠ w.name) := by
  rw [List.map_append, List.map_cons, List.nodup_append] at h
  obtain ⟨-, hq, hdis⟩ := h
  rw [List.nodup_cons] at hq
  constructor
  · intro x hx heq
    exact hdis (List.mem_map_of_mem _ hx) (by rw [heq]; exact List.mem_cons_self _ _)
  · intro x hx heq
    exact hq.1 (by rw [← heq]; exact List.mem_map_of_mem _ hx)

/-- The start of a handler is well formed. -/
theorem wellFormed_init (kind : Kind) (m : Mongo) (batch : List Fruit) :
    WellFormed (init kind m batch) :=
  ⟨by simp [init], by simp [init], by simp [init], by simp [init], by simp [init],
    by simp [init]⟩

theorem wellFormed_worker {s : PState} (hwf : WellFormed s) (p q : List Worker) (w : Worker)
    (r : WStep) (hws : s.workers = p ++ w :: q)
    (hw : stepWorker s.kind s.phase.closed s.mongo w = some r) :
    WellFormed (applyWStep s p w q r) := by
  have hwmem : w ∈ s.workers := by rw [hws]; simp
  obtain ⟨hpan, hname, hnex, hreq, hnil, hsent⟩ :=
    stepWorker_wf _ _ _ _ _ hw (hwf.target_set w hwmem)
  have hnd := hwf.names_nodup
  rw [hws] at hnd
  obtain ⟨hp, hq⟩ := nodup_names_split hnd
  have hmem : ∀ x, x ∈ p ++ r.worker :: q → x = r.worker ∨ (x ∈ s.workers ∧ x.name ≠ w.name) := by
    intro x hx
    rw [List.mem_append, List.mem_cons] at hx
    rcases hx with hx | rfl | hx
    · exact Or.inr ⟨by rw [hws]; simp [hx], hp x hx⟩
    · exact Or.inl rfl
    · exact Or.inr ⟨by rw [hws]; simp [hx], hq x hx⟩
  refine ⟨?_, ?_, ?_, ?_, ?_, ?_⟩
  · simpa [applyWStep, hname] using hnd
  · intro x hx o ho
    rcases hmem x hx with rfl | ⟨hx, -⟩
    · rw [hname]; exact hwf.own_request w hwmem o (hreq o ho)
    · exact hwf.own_request x hx o ho
  · intro x hx o
    rcases hmem x hx with rfl | ⟨hx, -⟩
    · exact hnil o
    · exact hwf.target_set x hx o
  · simpa [applyWStep, hpan] using hwf.not_crashed
  · intro x hx
    simp only [applyWStep, List.mem_append, List.mem_map] at hx
    rcases hx with hx | ⟨e, -, rfl⟩
    · obtain ⟨w0, hw0, hn0⟩ := hwf.senders x hx
      rw [hws, List.mem_append, List.mem_cons] at hw0
      simp only [applyWStep, List.mem_append, List.mem_cons]
      rcases hw0 with h | rfl | h
      · exact ⟨w0, Or.inl h, hn0⟩
      · exact ⟨r.worker, Or.inr (Or.inl rfl), by rw [hname, hn0]⟩
      · exact ⟨w0, Or.inr (Or.inr h), hn0⟩
    · exact ⟨r.worker, by simp [applyWStep], hname⟩
  · intro x hx hne y hy hyn
    simp only [applyWStep, List.mem_append, List.mem_map] at hx
    rcases hmem y hy with rfl | ⟨hy, hyw⟩
    · rcases hx with hx | ⟨e, he, rfl⟩
      · have := hwf.failed_exited x hx hne w hwmem (by rw [← hname]; exact hyn)
        exact absurd this hnex
      · exact hsent ⟨e, he, hne⟩
    · rcases hx with hx | ⟨e, he, rfl⟩
      · exact hwf.failed_exited x hx hne y hy hyn
      · exact absurd hyn hyw

theorem wellFormed_dispatch {s : PState} (hwf : WellFormed s) (o : Fruit) (rest : List Fruit)
    (ws : List Worker) (hd : dispatch s.workers o = some ws) :
    WellFormed { s with phase := .dispatching rest, workers := ws } := by
  rcases dispatch_some _ _ _ hd with ⟨hnew, rfl⟩ | ⟨p, q, hws, -, rfl⟩
  · refine ⟨?_, ?_, ?_, by simp, ?_, ?_⟩
    · simp only [List.map_append, List.map_cons, List.map_nil]
      rw [List.nodup_append]
      refine ⟨hwf.names_nodup, by simp, ?_⟩
      intro a ha hb
      simp at hb
      subst hb
      obtain ⟨x, hx, hxn⟩ := List.mem_map.mp ha
      exact hnew x hx hxn
    · intro x hx o1 ho1
      simp only [List.mem_append, List.mem_singleton] at hx
      rcases hx with hx | rfl
      · exact hwf.own_request x hx o1 ho1
      · simp [WState.request] at ho1; rw [← ho1]
    · intro x hx o1
      simp only [List.mem_append, List.mem_singleton] at hx
      rcases hx with hx | rfl
      · exact hwf.target_set x hx o1
      · simp
    · intro x hx
      obtain ⟨w0, hw0, hn0⟩ := hwf.senders x hx
      exact ⟨w0, by simp [hw0], hn0⟩
    · intro x hx hne y hy hyn
      simp only [List.mem_append, List.mem_singleton] at hy
      rcases hy with hy | rfl
      · exact hwf.failed_exited x hx hne y hy hyn
      · obtain ⟨w0, hw0, hn0⟩ := hwf.senders x hx
        exact absurd (by rw [hn0]; exact hyn.symm) (hnew w0 hw0)
  · have hwmem : (⟨o.Name, .recv⟩ : Worker) ∈ s.workers := by rw [hws]; simp
    have hnd := hwf.names_nodup
    rw [hws] at hnd
    obtain ⟨hp, hq⟩ := nodup_names_split hnd
    have hmem : ∀ x, x ∈ p ++ (⟨o.Name, .got o⟩ : Worker) :: q →
        x = ⟨o.Name, .got o⟩ ∨ x ∈ s.workers := by
      intro x hx
      rw [List.mem_append, List.mem_cons] at hx
      rcases hx with hx | rfl | hx
      · exact Or.inr (by rw [hws]; simp [hx])
      · exact Or.inl rfl
      · exact Or.inr (by rw [hws]; simp [hx])
    refine ⟨?_, ?_, ?_, by simp, ?_, ?_⟩
    · simpa using hnd
    · intro x hx o1 ho1
      rcases hmem x hx with rfl | hx
      · simp [WState.request] at ho1; rw [← ho1]
      · exact hwf.own_request x hx o1 ho1
    · intro x hx o1
      rcases hmem x hx with rfl | hx
      · simp
      · exact hwf.target_set x hx o1
    · intro x hx
      obtain ⟨w0, hw0, hn0⟩ := hwf.senders x hx
      rw [hws, List.mem_append, List.mem_cons] at hw0
      simp only [List.mem_append, List.mem_cons]
      rcases hw0 with h | rfl | h
      · exact ⟨w0, Or.inl h, hn0⟩
      · exact ⟨⟨o.Name, .got o⟩, Or.inr (Or.inl rfl), hn0⟩
      · exact ⟨w0, Or.inr (Or.inr h), hn0⟩
    · intro x hx hne y hy hyn
      rcases hmem y hy with rfl | hy
      · have := hwf.failed_exited x hx hne _ hwmem hyn
        simp at this
      · exact hwf.failed_exited x hx hne y hy hyn

/-- Well-formedness is kept by every move. -/
theorem wellFormed_step {s t : PState} (hwf : WellFormed s) (hst : Step s t) : WellFormed t := by
  rcases step_cases hst with hd | ⟨p, w, q, r, hws, hw, rfl⟩
  · rcases stepDispatcher_cases hd with ⟨-, rfl⟩ | ⟨o, rest, ws, -, hdp, rfl⟩ | ⟨-, -, rfl⟩
    · exact ⟨hwf.names_nodup, hwf.own_request, hwf.target_set, by simp, hwf.senders,
        hwf.failed_exited⟩
    · exact wellFormed_dispatch hwf o rest ws hdp
    · exact ⟨hwf.names_nodup, hwf.own_request, hwf.target_set, by simp, hwf.senders,
        hwf.failed_exited⟩
  · exact wellFormed_worker hwf p q w r hws hw

/-- Every reachable state of a handler is well formed; in particular no
goroutine of a handler ever panics. -/
theorem wellFormed_reach (kind : Kind) (m : Mongo) (batch : List Fruit) (s : PState)
    (h : Reach (init kind m batch) s) : WellFormed s :=
  reach_invariant WellFormed (fun _ _ hs hst => wellFormed_step hs hst) h
    (wellFormed_init kind m batch)
/-- The driver calls of a move of a worker are about the name of the request
it has in hand. -/
theorem stepWorker_calls (kind : Kind) (closed : Bool) (m : Mongo) (w : Worker) (r : WStep)
    (h : stepWorker kind closed m w = some r) (hnil : ∀ o, w.st ≠ .have o none) :
    r.mongo.calls = m.calls ∨
    ∃ o c, w.st.request = some o ∧ c.name = some o.Name ∧ r.mongo.calls = m.calls ++ [c] := by
  rcases stepWorker_cases kind closed m w r h with
    ⟨hst, -, rfl⟩ | ⟨o, m1, e, hst, hr, rfl⟩ | ⟨o, m1, target, hst, hr, rfl⟩ |
    ⟨o, target, hst, hfl, rfl⟩ | ⟨o, target, hst, hfl, rfl⟩ | ⟨o, target, hst, hfl, rfl⟩
  · exact Or.inl rfl
  · right
    have hm := readPhase_failed kind m o m1 e hr
    exact ⟨o, .findOne o.Name, by simp [hst, WState.request], rfl,
      by simp only [hm]; exact (GetFruitByName_store m o.Name).2⟩
  · right
    obtain ⟨d, -, -, hm⟩ := readPhase_proceed kind m o m1 target hr
    exact ⟨o, .findOne o.Name, by simp [hst, WState.request], rfl,
      by simp only [hm]; exact (GetFruitByName_store m o.Name).2⟩
  · cases target with
    | none => exact absurd hst (hnil o)
    | some d =>
      rcases (writePhase_spec kind m o d).2.2.2 with hm | ⟨v, hc, -⟩
      · left; simp only [hm]
      · right; exact ⟨o, .updateOne o.Name v, by simp [hst, WState.request], rfl, hc⟩
  · cases target with
    | none => exact absurd hst (hnil o)
    | some d =>
      rcases (writePhase_spec kind m o d).2.2.2 with hm | ⟨v, hc, -⟩
      · left; simp only [hm]
      · right; exact ⟨o, .updateOne o.Name v, by simp [hst, WState.request], rfl, hc⟩
  · cases target with
    | none => exact absurd hst (hnil o)
    | some d => exact absurd hfl (writePhase_spec kind m o d).1

/-- After a worker has sent an error, a move changes nothing about its name:
no driver call about the name, no outcome from the worker, and the requests
for the name still to send stay in the dispatch loop. -/
theorem failed_step {s t : PState} (hwf : WellFormed s) (n : String) (e : GoError)
    (hfail : (n, some e) ∈ s.errChannel) (hst : Step s t) :
    (n, some e) ∈ t.errChannel ∧
    callsAbout n t.mongo.calls = callsAbout n s.mongo.calls ∧
    outcomesOf n t.errChannel = outcomesOf n s.errChannel ∧
    t.phase.pendingFor n = s.phase.pendingFor n := by
  obtain ⟨w0, hw0, hn0⟩ := hwf.senders _ hfail
  have hex : ∀ w ∈ s.workers, w.name = n → w.st = .exited :=
    fun w hw hn => hwf.failed_exited _ hfail (by simp) w hw hn
  rcases step_cases hst with hd | ⟨p, w, q, r, hws, hw, rfl⟩
  · rcases stepDispatcher_cases hd with ⟨hph, rfl⟩ | ⟨o, rest, ws, hph, hdp, rfl⟩ | ⟨hph, -, rfl⟩
    · simp [hfail, hph, Phase.pendingFor]
    · refine ⟨hfail, rfl, rfl, ?_⟩
      have hon : o.Name ≠ n := by
        intro hon
        rcases dispatch_some _ _ _ hdp with ⟨hnew, -⟩ | ⟨p, q, hws, -, -⟩
        · exact hnew w0 hw0 (by rw [hon]; exact hn0)
        · have := hex ⟨o.Name, .recv⟩ (by rw [hws]; simp) hon
          simp at this
      simp [hph, Phase.pendingFor, hon]
    · simp [hfail, hph, Phase.pendingFor]
  · have hwmem : w ∈ s.workers := by rw [hws]; simp
    have hnil := hwf.target_set w hwmem
    obtain ⟨hpan, -, hnex, -, -, -⟩ := stepWorker_wf _ _ _ _ _ hw hnil
    have hwn : w.name ≠ n := fun hn => hnex (hex w hwmem hn)
    refine ⟨by simp [applyWStep, hfail], ?_, ?_, by simp [applyWStep, hpan]⟩
    · rcases stepWorker_calls _ _ _ _ _ hw hnil with hc | ⟨o, c, ho, hcn, hc⟩
      · simp [applyWStep, hc]
      · have hon : o.Name = w.name := hwf.own_request w hwmem o ho
        simp only [applyWStep, hc, callsAbout, List.filter_append]
        have : List.filter (fun c => decide (c.name = some n)) [c] = [] := by
          simp [hcn, hon, hwn]
        rw [this, List.append_nil]
    · simp only [applyWStep, outcomesOf, List.filter_append]
      have : List.filter (fun x => decide (x.1 = n)) (List.map (fun e => (w.name, e)) r.sent)
          = [] := by
        simp [List.filter_eq_nil_iff, hwn]
      rw [this, List.append_nil]

/-- After a worker has sent an error, whatever moves follow change nothing
about its name. -/
theorem failed_reach (kind : Kind) (m : Mongo) (batch : List Fruit)
    (s t : PState) (n : String) (e : GoError)
    (hs : Reach (init kind m batch) s) (hfail : (n, some e) ∈ s.errChannel)
    (ht : Reach s t) :
    WellFormed t ∧ (n, some e) ∈ t.errChannel ∧
    callsAbout n t.mongo.calls = callsAbout n s.mongo.calls ∧
    outcomesOf n t.errChannel = outcomesOf n s.errChannel ∧
    t.phase.pendingFor n = s.phase.pendingFor n := by
  have hwfs := wellFormed_reach kind m batch s hs
  induction ht with
  | refl => exact ⟨hwfs, hfail, rfl, rfl, rfl⟩
  | tail _ hst ih =>
    obtain ⟨hwf, hf, h1, h2, h3⟩ := ih
    obtain ⟨hf1, g1, g2, g3⟩ := failed_step hwf n e hf hst
    exact ⟨wellFormed_step hwf hst, hf1, g1.trans h1, g2.trans h2, g3.trans h3⟩

/-- The stall in general, for both handlers: once a worker has sent an error
while a request for its name is still to be sent, no scheduling lets the
handler return. -/
theorem handler_never_returns_after_failure (kind : Kind) (m : Mongo) (batch : List Fruit)
    (s t : PState) (n : String) (e : GoError)
    (hs : Reach (init kind m batch) s) (hfail : (n, some e) ∈ s.errChannel)
    (hpend : s.phase.pendingFor n ≠ []) (ht : Reach s t) (resp : Response) :
    t.phase ≠ .returned resp := by
  obtain ⟨-, -, -, -, h3⟩ := failed_reach kind m batch s t n e hs hfail ht
  intro hph
  rw [hph] at h3
  exact hpend (by simpa [Phase.pendingFor] using h3.symm)

/-- Claim C3 as amended. Once a request of a name-group has failed, that is
once the worker of the name `n` has sent an error, the worker has returned
and stays so: whatever moves follow, the worker sends no further outcome
(none marks a skipped request), and no read or write about `n` reaches the
store. -/
theorem failed_worker_stays_returned (kind : Kind) (m : Mongo) (batch : List Fruit)
    (s t : PState) (n : String) (e : GoError)
    (hs : Reach (init kind m batch) s) (hfail : (n, some e) ∈ s.errChannel)
    (ht : Reach s t) :
    (∃ w ∈ t.workers, w.name = n) ∧
    (∀ w ∈ t.workers, w.name = n → w.st = .exited) ∧
    callsAbout n t.mongo.calls = callsAbout n s.mongo.calls ∧
    outcomesOf n t.errChannel = outcomesOf n s.errChannel := by
  obtain ⟨hwft, hft, h1, h2, -⟩ := failed_reach kind m batch s t n e hs hfail ht
  exact ⟨hwft.senders _ hft, fun w hw hn => hwft.failed_exited _ hft (by simp) w hw hn,
    h1, h2⟩

/-- Witness of claim C3 as amended: stock of apple and banana, and the orders
apple 8, banana 1, apple 1. After four moves the worker of apple has sent its
error; two moves later the worker of banana has applied its order, and the
worker of apple has neither sent nor read nor written anything more. -/
theorem failed_worker_stays_returned_witness :
    (∃ w ∈ (runFirst 6 orderMixed).workers, w.name = "apple") ∧
    (∀ w ∈ (runFirst 6 orderMixed).workers, w.name = "apple" → w.st = .exited) ∧
    callsAbout "apple" (runFirst 6 orderMixed).mongo.calls
      = callsAbout "apple" (runFirst 4 orderMixed).mongo.calls ∧
    outcomesOf "apple" (runFirst 6 orderMixed).errChannel
      = outcomesOf "apple" (runFirst 4 orderMixed).errChannel :=
  failed_worker_stays_returned .order (store [apple 6, banana 5])
    [apple 8, banana 1, apple 1] (runFirst 4 orderMixed) (runFirst 6 orderMixed) "apple"
    (.new "apple 庫存不足") (reach_runFirst 4 orderMixed) (by decide)
    (reach_runFirst 2 (runFirst 4 orderMixed))

/-! ## Non-negative stock -/

theorem writePhase_nil (kind : Kind) (m : Mongo) (o : Fruit) :
    writePhase kind m o none = ⟨m, [], .panic⟩ := by
  cases kind <;> rfl

theorem add_val_of_fits (a b : GoInt) (ha : 0 ≤ a.val) (hb : 0 ≤ b.val)
    (h : a.val + b.val ≤ 9223372036854775807) : (a.add b).val = a.val + b.val := by
  rw [GoInt.add_val, wrapInt_eq_self (by omega) h]

theorem orderFourEight_reach (t : PState) (h : Reach orderFourEight t) :
    t ∈ orderFourEightStates :=
  reach_subset orderFourEightStates orderFourEight (by decide) (by decide) t h

/-- The example of the specification for a rejected order: with stock 10 of
apple and the orders 4 and 8, every run of `HandleOrderFruits` to the end
returns the message of the rejection, with the outcomes nil and rejection in
this order, one write of quantity 6, and the final quantity 6. -/
theorem orderFourEight_result :
    (∃ f, Reach orderFourEight f ∧ Terminal f) ∧
    ∀ f, Reach orderFourEight f → Terminal f →
      f.phase = .returned ⟨["apple 庫存不足"], false⟩ ∧
      f.errChannel = [("apple", none), ("apple", some (.new "apple 庫存不足"))] ∧
      f.mongo.calls
        = [.findOne "apple", .updateOne "apple" (GoInt.ofInt 6), .findOne "apple"] ∧
      quantityOf f.mongo.docs "apple" = some (GoInt.ofInt 6) := by
  refine ⟨reach_terminal _, ?_⟩
  intro f hf
  have hall : ∀ u ∈ orderFourEightStates, Terminal u →
      u.phase = .returned ⟨["apple 庫存不足"], false⟩ ∧
      u.errChannel = [("apple", none), ("apple", some (.new "apple 庫存不足"))] ∧
      u.mongo.calls
        = [.findOne "apple", .updateOne "apple" (GoInt.ofInt 6), .findOne "apple"] ∧
      quantityOf u.mongo.docs "apple" = some (GoInt.ofInt 6) := by decide
  exact hall f (orderFourEight_reach f hf)

theorem busy_append (p q : List Worker) : busy (p ++ q) = busy p + busy q := by
  induction p with
  | nil => simp [busy]
  | cons a p ih => simp [busy, ih]; omega

/-- A move of a worker sends at most one value, and only when it drops the
request it has in hand. -/
theorem stepWorker_sent (kind : Kind) (closed : Bool) (m : Mongo) (w : Worker) (r : WStep)
    (h : stepWorker kind closed m w = some r) :
    r.sent.length + busy [r.worker] ≤ busy [w] := by
  rcases stepWorker_cases kind closed m w r h with
    ⟨hst, -, rfl⟩ | ⟨o, m1, e, hst, hr, rfl⟩ | ⟨o, m1, target, hst, hr, rfl⟩ |
    ⟨o, target, hst, hfl, rfl⟩ | ⟨o, target, hst, hfl, rfl⟩ | ⟨o, target, hst, hfl, rfl⟩
  · simp [busy, hst, WState.request]
  · simp [busy, hst, WState.request]
  · simp [busy, hst, WState.request]
  · cases target with
    | none => rw [writePhase_nil] at hfl; simp at hfl
    | some d =>
      have := (writePhase_spec kind m o d).2.1
      simp [busy, hst, WState.request]
      omega
  · cases target with
    | none => rw [writePhase_nil] at hfl; simp at hfl
    | some d =>
      have := (writePhase_spec kind m o d).2.1
      simp [busy, hst, WState.request]
      omega
  · cases target with
    | none => rw [writePhase_nil]; simp [busy, hst, WState.request]
    | some d => exact absurd hfl (writePhase_spec kind m o d).1

theorem capacity_step {s t : PState} (hst : Step s t) :
    t.errChannel.length + busy t.workers + t.phase.pending.length
      ≤ s.errChannel.length + busy s.workers + s.phase.pending.length := by
  rcases step_cases hst with hd | ⟨p, w, q, r, hws, hw, rfl⟩
  · rcases stepDispatcher_cases hd with ⟨hph, rfl⟩ | ⟨o, rest, ws, hph, hdp, rfl⟩ | ⟨hph, -, rfl⟩
    · simp [hph, Phase.pending]
    · have hb : busy ws = busy s.workers + 1 := by
        rcases dispatch_some _ _ _ hdp with ⟨-, rfl⟩ | ⟨p, q, hws, -, rfl⟩
        · simp [busy_append, busy, WState.request]
        · rw [hws]
          simp [busy_append, busy, WState.request]
          omega
      simp only [hph, Phase.pending, List.length_cons, hb]
      omega
    · simp [hph, Phase.pending]
  · have h1 := stepWorker_sent _ _ _ _ _ hw
    have h2 : (applyWStep s p w q r).phase.pending.length ≤ s.phase.pending.length := by
      simp only [applyWStep]
      cases r.panicked <;> simp [Phase.pending]
    simp only [busy, Nat.add_zero] at h1
    simp only [applyWStep, List.length_append, List.length_map, busy_append, busy, hws] at h2 ⊢
    omega

/-- The sends on `errChannel` never block: the channel is made with room for
one value per request of the batch, and it never holds more. -/
theorem errChannel_within_capacity (kind : Kind) (m : Mongo) (batch : List Fruit) (t : PState)
    (h : Reach (init kind m batch) t) : t.errChannel.length ≤ batch.length := by
  have key : t.errChannel.length + busy t.workers + t.phase.pending.length ≤ batch.length := by
    induction h with
    | refl => simp [init, busy, Phase.pending]
    | tail _ hst ih => exact le_trans (capacity_step hst) ih
  omega

/-- The loop of `restockWorker` goes on only after an iteration that has sent
nothing; the loop of `fruitWorker` goes on only after an iteration that has
sent nil. -/
theorem body_sent_on_success (m : Mongo) (o : Fruit) :
    ((restockWorkerBody m o).flow = .next → (restockWorkerBody m o).sent = []) ∧
    ((fruitWorkerBody m o).flow = .next → (fruitWorkerBody m o).sent = [none]) := by
  constructor
  · unfold restockWorkerBody
    cases hr : restockWorkerRead m o with
    | failed m1 e => simp
    | proceed m1 target =>
      simp only
      unfold restockWorkerWrite
      cases target with
      | none => simp
      | some d =>
        simp only
        split <;> simp
  · unfold fruitWorkerBody
    cases hr : fruitWorkerRead m o with
    | failed m1 e => simp
    | proceed m1 target =>
      simp only
      unfold fruitWorkerWrite
      cases target with
      | none => simp
      | some d =>
        simp only
        split
        · split <;> simp
        · simp

/-! ## A batch of restocks for one recorded name -/

theorem restockCalls_append (n : String) (cur : Int) (a b : List Fruit) :
    restockCalls n cur (a ++ b) = restockCalls n cur a ++ restockCalls n (cur + qsum a) b := by
  induction a generalizing cur with
  | nil => simp [restockCalls, qsum]
  | cons o a ih =>
    have h1 : cur + (o.Quantity.val + qsum a) = cur + o.Quantity.val + qsum a := by omega
    have h2 := ih (cur + o.Quantity.val)
    simp only [List.cons_append, restockCalls, qsum, h1]
    exact congrArg (fun l => Call.findOne n :: Call.updateOne n _ :: l) h2

/-- A successful read in `restockWorker`. -/
theorem restockWorkerRead_ok (m : Mongo) (o d : Fruit) (hf : m.faults = [])
    (hd : findDoc m.docs o.Name = some d) :
    restockWorkerRead m o = .proceed ⟨m.docs, [], m.calls ++ [.findOne o.Name]⟩ (some d) := by
  unfold restockWorkerRead
  rw [GetFruitByName_found m o.Name (nextOk_of_nil m hf) d hd, call_ok m _ hf]
  simp [hf]

/-- A successful write in `restockWorker`. -/
theorem restockWorkerWrite_ok (m : Mongo) (o target d : Fruit) (hf : m.faults = [])
    (hd : findDoc m.docs o.Name = some d) :
    restockWorkerWrite m o (some target) =
      ⟨⟨setQuantity m.docs o.Name (target.Quantity.add o.Quantity), [],
          m.calls ++ [.updateOne o.Name (target.Quantity.add o.Quantity)]⟩, [], .next⟩ := by
  unfold restockWorkerWrite
  simp only
  unfold UpdateFruitQuantityByName UpdateOne
  rw [call_ok m _ hf]
  simp [hd, hf]

theorem restockOneInv_init (n : String) (q : GoInt) (m : Mongo) (reqs : List Fruit)
    (hf : m.faults = []) (hq : quantityOf m.docs n = some q) :
    RestockOneInv n q m.calls reqs (init .restock m reqs) := by
  refine ⟨rfl, hf, [], reqs, q, [], rfl, hq, by simp [qsum], rfl,
    by simp [init, restockCalls], ?_⟩
  exact OneNameShape.idle reqs [] (Or.inl rfl)

theorem restockOneInv_step (n : String) (q : GoInt) (calls0 : List Call) (reqs : List Fruit)
    (hname : ∀ o ∈ reqs, o.Name = n) (hnn : ∀ o ∈ reqs, 0 ≤ o.Quantity.val)
    (hq0 : 0 ≤ q.val)
    (hfit : q.val + qsum reqs ≤ 9223372036854775807) {s t : PState}
    (hinv : RestockOneInv n q calls0 reqs s) (hst : Step s t) : RestockOneInv n q calls0 reqs t := by
  obtain ⟨kind, phase, workers, mongo, errs⟩ := s
  obtain ⟨hk, hf, done, rest, cur, tail, hreqs, hcur, hval, herrs, hcalls, hshape⟩ := hinv
  simp only at hk hf hcur herrs hcalls hshape
  subst hk
  rcases step_cases hst with hd | ⟨p, w, qq, r, hws, hw, rfl⟩
  · cases hshape with
    | idle rest ws hw =>
      cases rest with
      | nil =>
        simp [stepDispatcher] at hd
        subst hd
        refine ⟨rfl, hf, done, [], cur, [], hreqs, hcur, hval, herrs, hcalls, ?_⟩
        exact OneNameShape.closed _ (by rcases hw with h | h <;> simp [h])
      | cons o rest =>
        have ho : o.Name = n := hname o (by rw [hreqs]; simp)
        rcases hw with rfl | rfl
        · simp [stepDispatcher, dispatch] at hd
          subst hd
          refine ⟨rfl, hf, done, o :: rest, cur, [], hreqs, hcur, hval, herrs, hcalls, ?_⟩
          simp only [ho]
          exact OneNameShape.got o rest _ (Or.inl rfl)
        · simp [stepDispatcher, dispatch, ho] at hd
          subst hd
          refine ⟨rfl, hf, done, o :: rest, cur, [], hreqs, hcur, hval, herrs, hcalls, ?_⟩
          exact OneNameShape.got o rest _ (Or.inl rfl)
    | got o rest ph hph =>
      rcases hph with rfl | ⟨rfl, rfl⟩
      · cases rest with
        | nil =>
          simp [stepDispatcher] at hd
          subst hd
          refine ⟨rfl, hf, done, [o], cur, [], hreqs, hcur, hval, herrs, hcalls, ?_⟩
          exact OneNameShape.got o [] _ (Or.inr ⟨rfl, rfl⟩)
        | cons o1 rest =>
          have ho1 : o1.Name = n := hname o1 (by rw [hreqs]; simp)
          simp [stepDispatcher, dispatch, ho1] at hd
      · simp [stepDispatcher] at hd
    | read o rest ph target htarget hph =>
      rcases hph with rfl | ⟨rfl, rfl⟩
      · cases rest with
        | nil =>
          simp [stepDispatcher] at hd
          subst hd
          refine ⟨rfl, hf, done, [o], cur, _, hreqs, hcur, hval, herrs, hcalls, ?_⟩
          exact OneNameShape.read o [] _ target htarget (Or.inr ⟨rfl, rfl⟩)
        | cons o1 rest =>
          have ho1 : o1.Name = n := hname o1 (by rw [hreqs]; simp)
          simp [stepDispatcher, dispatch, ho1] at hd
      · simp [stepDispatcher] at hd
    | closed ws hw =>
      rcases hw with rfl | rfl | rfl
      · simp [stepDispatcher] at hd
        subst hd
        refine ⟨rfl, hf, done, [], cur, [], hreqs, hcur, hval, herrs, hcalls, ?_⟩
        exact OneNameShape.returned _ (Or.inl rfl)
      · simp [stepDispatcher] at hd
      · simp [stepDispatcher] at hd
        subst hd
        refine ⟨rfl, hf, done, [], cur, [], hreqs, hcur, hval, herrs, hcalls, ?_⟩
        exact OneNameShape.returned _ (Or.inr rfl)
    | returned ws hw => simp [stepDispatcher] at hd
  · simp only at hws hw
    cases hshape with
    | idle rest ws hws1 =>
      rcases hws1 with rfl | rfl
      · simp at hws
      · obtain ⟨rfl, rfl, rfl⟩ := singleton_split hws
        simp [stepWorker, Phase.closed] at hw
    | got o rest ph hph =>
      obtain ⟨rfl, rfl, rfl⟩ := singleton_split hws
      have ho : o.Name = n := hname o (by rw [hreqs]; simp)
      obtain ⟨d, hd, hdq⟩ := quantityOf_some hcur
      rw [← ho] at hd
      simp [stepWorker, readPhase, restockWorkerRead_ok mongo o d hf hd] at hw
      subst hw
      refine ⟨rfl, rfl, done, o :: rest, cur, [.findOne n], hreqs, hcur, hval,
        by simpa [applyWStep] using herrs, by simp [applyWStep, hcalls, ho], ?_⟩
      simp only [applyWStep, List.map_nil, List.append_nil, List.nil_append]
      exact OneNameShape.read o rest _ d hdq (by simpa using hph)
    | read o rest ph target htarget hph =>
      obtain ⟨rfl, rfl, rfl⟩ := singleton_split hws
      have ho : o.Name = n := hname o (by rw [hreqs]; simp)
      have hoq : 0 ≤ o.Quantity.val := hnn o (by rw [hreqs]; simp)
      have hrest : 0 ≤ qsum rest :=
        qsum_nonneg rest (fun x hx => hnn x (by rw [hreqs]; simp [hx]))
      have hsplit : qsum reqs = qsum done + (o.Quantity.val + qsum rest) := by
        rw [hreqs, qsum_append]; rfl
      have hdone : 0 ≤ qsum done :=
        qsum_nonneg done (fun x hx => hnn x (by rw [hreqs]; simp [hx]))
      have hcur0 : 0 ≤ cur.val := by omega
      have haddv : (target.Quantity.add o.Quantity).val = cur.val + o.Quantity.val := by
        rw [htarget]; exact add_val_of_fits cur o.Quantity hcur0 hoq (by omega)
      obtain ⟨d, hd, hdq⟩ := quantityOf_some hcur
      rw [← ho] at hd
      simp [stepWorker, writePhase, restockWorkerWrite_ok mongo o target d hf hd] at hw
      subst hw
      refine ⟨rfl, rfl, done ++ [o], rest, target.Quantity.add o.Quantity, [],
        by simp [hreqs], ?_, ?_, ?_, ?_, ?_⟩
      · simp only [applyWStep]
        rw [← ho]
        exact quantityOf_setQuantity _ hd
      · rw [haddv, qsum_append]; simp [qsum]; omega
      · simp [applyWStep, herrs]
      · simp only [applyWStep, List.append_nil]
        rw [hcalls, restockCalls_append]
        simp [restockCalls, ho, GoInt.add, htarget, hval]
      · simp only [applyWStep, List.map_nil, List.append_nil]
        rcases hph with rfl | ⟨rfl, rfl⟩
        · exact OneNameShape.idle rest _ (Or.inr rfl)
        · exact OneNameShape.closed _ (Or.inr (Or.inl rfl))
    | closed ws hws1 =>
      rcases hws1 with rfl | rfl | rfl
      · simp at hws
      · obtain ⟨rfl, rfl, rfl⟩ := singleton_split hws
        simp [stepWorker, Phase.closed] at hw
        subst hw
        refine ⟨rfl, hf, done, [], cur, [], hreqs, hcur, hval,
          by simpa [applyWStep] using herrs, by simpa [applyWStep] using hcalls, ?_⟩
        simp only [applyWStep, List.map_nil, List.append_nil, List.nil_append]
        exact OneNameShape.closed _ (Or.inr (Or.inr rfl))
      · obtain ⟨rfl, rfl, rfl⟩ := singleton_split hws
        simp [stepWorker] at hw
    | returned ws hws1 =>
      rcases hws1 with rfl | rfl
      · simp at hws
      · obtain ⟨rfl, rfl, rfl⟩ := singleton_split hws
        simp [stepWorker] at hw

theorem restockOneInv_terminal (n : String) (q : GoInt) (calls0 : List Call) (reqs : List Fruit)
    (hname : ∀ o ∈ reqs, o.Name = n) {s : PState}
    (hinv : RestockOneInv n q calls0 reqs s) (hterm : Terminal s) :
    s.phase = .returned ⟨[], true⟩ ∧ s.errChannel = [] ∧
    s.mongo.calls = calls0 ++ restockCalls n q.val reqs ∧
    ∃ qf, quantityOf s.mongo.docs n = some qf ∧ qf.val = q.val + qsum reqs := by
  obtain ⟨kind, phase, workers, mongo, errs⟩ := s
  obtain ⟨hk, hf, done, rest, cur, tail, hreqs, hcur, hval, herrs, hcalls, hshape⟩ := hinv
  simp only at hk hf hcur herrs hcalls hshape
  subst hk
  cases hshape with
  | idle rest ws hw =>
    exfalso
    cases rest with
    | nil => exact terminal_no_step hterm (step_of_dispatcher (by simp [stepDispatcher]; rfl))
    | cons o rest =>
      have ho : o.Name = n := hname o (by rw [hreqs]; simp)
      rcases hw with rfl | rfl
      · exact terminal_no_step hterm (step_of_dispatcher (by simp [stepDispatcher, dispatch]; rfl))
      · exact terminal_no_step hterm
          (step_of_dispatcher (by simp [stepDispatcher, dispatch, ho]; rfl))
  | got o rest ph hph =>
    exfalso
    obtain ⟨r, hr⟩ := stepWorker_got_some .restock phase.closed mongo n o
    have hnc : phase ≠ .crashed := by rcases hph with rfl | ⟨_, rfl⟩ <;> simp
    exact terminal_no_step hterm (step_of_worker [] [] hnc rfl hr)
  | read o rest ph target htarget hph =>
    exfalso
    obtain ⟨r, hr⟩ := stepWorker_have_some .restock phase.closed mongo n o (some target)
    have hnc : phase ≠ .crashed := by rcases hph with rfl | ⟨_, rfl⟩ <;> simp
    exact terminal_no_step hterm (step_of_worker [] [] hnc rfl hr)
  | closed ws hw =>
    exfalso
    rcases hw with rfl | rfl | rfl
    · exact terminal_no_step hterm (step_of_dispatcher (by simp [stepDispatcher]; rfl))
    · have hr : stepWorker .restock Phase.waiting.closed mongo ⟨n, .recv⟩
          = some ⟨⟨n, .exited⟩, mongo, [], false⟩ := by simp [stepWorker, Phase.closed]
      exact terminal_no_step hterm (step_of_worker [] [] (by simp) rfl hr)
    · exact terminal_no_step hterm (step_of_dispatcher (by simp [stepDispatcher]; rfl))
  | returned ws hw =>
    have hdone : reqs = done := by simpa using hreqs
    subst hdone
    refine ⟨?_, herrs, by simpa using hcalls, cur, hcur, hval⟩
    simp only [herrs]
    rfl


/-- The sequential application of restocks to a recorded name. A batch of
restock requests for one name `n` that has a record with quantity `q`, with
non-negative quantities whose sum added to `q` fits into an `int`, on a store
whose calls succeed: a run of `HandleRestock` to the end exists, and every run
to the end, under any scheduling, ends with the handler returned with success,
an empty outcome channel, the driver calls of the sequential application in
submission order, and the recorded quantity `q` plus the sum of the
requests. -/
theorem HandleRestock_sequential (n : String) (q : GoInt) (m : Mongo) (reqs : List Fruit)
    (hf : m.faults = []) (hq : quantityOf m.docs n = some q) (hq0 : 0 ≤ q.val)
    (hname : ∀ o ∈ reqs, o.Name = n) (hnn : ∀ o ∈ reqs, 0 ≤ o.Quantity.val)
    (hfit : q.val + qsum reqs ≤ 9223372036854775807) :
    (∃ f, Reach (HandleRestock m reqs) f ∧ Terminal f) ∧
    ∀ f, Reach (HandleRestock m reqs) f → Terminal f →
      f.phase = .returned ⟨[], true⟩ ∧
      f.errChannel = [] ∧
      f.mongo.calls = m.calls ++ restockCalls n q.val reqs ∧
      ∃ qf, quantityOf f.mongo.docs n = some qf ∧ qf.val = q.val + qsum reqs := by
  refine ⟨reach_terminal _, ?_⟩
  intro f hreach hterm
  have hinv : RestockOneInv n q m.calls reqs f :=
    reach_invariant (RestockOneInv n q m.calls reqs)
      (fun s t hs hst => restockOneInv_step n q m.calls reqs hname hnn hq0 hfit hs hst) hreach
      (restockOneInv_init n q m reqs hf hq)
  exact restockOneInv_terminal n q m.calls reqs hname hinv hterm

/-! ## The dispatch loop: one worker per name -/

theorem mem_distinctNamesFrom (seen : List String) (l : List Fruit) (x : String) :
    x ∈ distinctNamesFrom seen l ↔ x ∈ l.map Fruit.Name ∧ x ∉ seen := by
  induction l generalizing seen with
  | nil => simp [distinctNamesFrom]
  | cons o l ih =>
    unfold distinctNamesFrom
    by_cases ho : o.Name ∈ seen
    · simp only [ho, if_true, ih, List.map_cons, List.mem_cons]
      constructor
      · rintro ⟨h1, h2⟩; exact ⟨Or.inr h1, h2⟩
      · rintro ⟨h1 | h1, h2⟩
        · rw [h1] at h2; exact absurd ho h2
        · exact ⟨h1, h2⟩
    · simp only [ho, if_false, List.mem_cons, ih, List.map_cons]
      constructor
      · rintro (h | ⟨h1, h2⟩)
        · rw [h]; exact ⟨Or.inl rfl, ho⟩
        · exact ⟨Or.inr h1, fun hx => h2 (Or.inr hx)⟩
      · rintro ⟨h1 | h1, h2⟩
        · exact Or.inl h1
        · by_cases hx : x = o.Name
          · exact Or.inl hx
          · exact Or.inr ⟨h1, fun h => h.elim hx h2⟩

theorem distinctNamesFrom_append (seen : List String) (l : List Fruit) (o : Fruit) :
    distinctNamesFrom seen (l ++ [o]) =
      distinctNamesFrom seen l ++
        (if o.Name ∈ seen ∨ o.Name ∈ l.map Fruit.Name then [] else [o.Name]) := by
  induction l generalizing seen with
  | nil =>
    by_cases ho : o.Name ∈ seen <;> simp [distinctNamesFrom, ho]
  | cons a l ih =>
    rw [List.cons_append]
    unfold distinctNamesFrom
    by_cases ha : a.Name ∈ seen
    · rw [if_pos ha, if_pos ha, ih seen]
      by_cases h1 : o.Name ∈ seen
      · simp [h1]
      · by_cases h2 : o.Name = a.Name
        · rw [h2] at h1; exact absurd ha h1
        · simp [h1, h2]
    · rw [if_neg ha, if_neg ha, ih (a.Name :: seen)]
      by_cases h2 : o.Name = a.Name
      · simp [h2]
      · simp [h2]

/-- The distinct names after one more request. -/
theorem distinctNames_append (l : List Fruit) (o : Fruit) :
    distinctNames (l ++ [o]) =
      if o.Name ∈ distinctNames l then distinctNames l else distinctNames l ++ [o.Name] := by
  unfold distinctNames
  rw [distinctNamesFrom_append]
  have hmem : o.Name ∈ distinctNamesFrom [] l ↔ o.Name ∈ l.map Fruit.Name := by
    rw [mem_distinctNamesFrom]; simp
  by_cases h : o.Name ∈ l.map Fruit.Name
  · simp [h, hmem.mpr h]
  · have h1 : o.Name ∉ distinctNamesFrom [] l := fun hx => h (hmem.mp hx)
    simp only [h1, if_false]
    simp [h]

theorem workers_names_step (batch : List Fruit) {s t : PState}
    (hinv : ∃ sent, s.workers.map Worker.name = distinctNames sent ∧
      (∀ p, s.phase = .dispatching p → batch = sent ++ p) ∧
      (s.phase = .waiting ∨ (∃ r, s.phase = .returned r) → sent = batch))
    (hst : Step s t) :
    ∃ sent, t.workers.map Worker.name = distinctNames sent ∧
      (∀ p, t.phase = .dispatching p → batch = sent ++ p) ∧
      (t.phase = .waiting ∨ (∃ r, t.phase = .returned r) → sent = batch) := by
  obtain ⟨sent, hnames, hdisp, hclosed⟩ := hinv
  rcases step_cases hst with hd | ⟨p, w, q, r, hws, hw, rfl⟩
  · rcases stepDispatcher_cases hd with ⟨hph, rfl⟩ | ⟨o, rest, ws, hph, hdp, rfl⟩ | ⟨hph, -, rfl⟩
    · refine ⟨sent, hnames, by simp, ?_⟩
      intro _
      have := hdisp [] hph
      simpa using this.symm
    · refine ⟨sent ++ [o], ?_, ?_, by simp⟩
      · rw [distinctNames_append, ← hnames]
        rcases dispatch_some _ _ _ hdp with ⟨hnew, rfl⟩ | ⟨p, q, hws, -, rfl⟩
        · have : o.Name ∉ s.workers.map Worker.name := by
            intro hx
            obtain ⟨x, hx1, hx2⟩ := List.mem_map.mp hx
            exact hnew x hx1 hx2
          simp [this]
        · have : o.Name ∈ s.workers.map Worker.name := by rw [hws]; simp
          simp only [this, if_true]
          rw [hws]
          simp
      · intro p1 hp1
        simp at hp1
        subst hp1
        rw [hdisp _ hph]
        simp
    · refine ⟨sent, hnames, by simp, fun _ => hclosed (Or.inl hph)⟩
  · have hname : r.worker.name = w.name := by
      rcases stepWorker_cases _ _ _ _ _ hw with
        ⟨-, -, rfl⟩ | ⟨_, _, _, -, -, rfl⟩ | ⟨_, _, _, -, -, rfl⟩ |
        ⟨_, _, -, -, rfl⟩ | ⟨_, _, -, -, rfl⟩ | ⟨_, _, -, -, rfl⟩ <;> rfl
    refine ⟨sent, ?_, ?_, ?_⟩
    · rw [← hnames, hws]
      simp [applyWStep, hname]
    · intro p1 hp1
      simp only [applyWStep] at hp1
      cases hpan : r.panicked with
      | false => rw [hpan] at hp1; exact hdisp p1 (by simpa using hp1)
      | true => rw [hpan] at hp1; simp at hp1
    · intro h
      simp only [applyWStep] at h
      cases hpan : r.panicked with
      | false => rw [hpan] at h; exact hclosed (by simpa using h)
      | true => rw [hpan] at h; simp at h

/-- What the dispatch loop does as far as it gets: at every point of every run
of a handler, the started workers are, in the order of their start, exactly
one per distinct name among the requests sent so far; once the loop is left,
that is one per distinct name of the batch. -/
theorem workers_one_per_sent_name (kind : Kind) (m : Mongo) (batch : List Fruit) (s : PState)
    (h : Reach (init kind m batch) s) :
    ∃ sent, s.workers.map Worker.name = distinctNames sent ∧
      (∀ p, s.phase = .dispatching p → batch = sent ++ p) ∧
      (s.phase = .waiting ∨ (∃ r, s.phase = .returned r) → sent = batch) := by
  induction h with
  | refl => exact ⟨[], by simp [init, distinctNames, distinctNamesFrom], by simp [init], by simp [init]⟩
  | tail _ hst ih => exact workers_names_step batch ih hst

end FruitManager
